import Mathlib

/-!
# Verification of the maze generation engine of `maze_game.py`

Shallow embedding of the maze engine: the `Cell`/`Direction` data model, the
wall set (`init_walls`, `is_wall_between`, `_remove_wall`), the randomized
Prim builder (`generate_maze`), the connectivity guard (`_has_path`,
`_create_path`, `_ensure_path_exists`) and the movement validator
(`can_move`).  Python sets of cells are modelled as `Finset Cell` (the
frontier, whose iteration order feeds `random.choice`, is a duplicate-free
`List Cell`); Python's random source is modelled as an oracle `f : Nat → Nat`
supplying one natural number per `random.choice` call, the choice being the
element at index `f k % length` of the list passed to `random.choice` — with
`f` universally quantified this covers every behavior of the random source.
While-loops are embedded as fuel-indexed recursion; each loop is supplied a
fuel argument proved (in the theorems below) to exceed the number of
iterations the loop can perform, so the fuel never runs out.
-/

/-- The `Cell` dataclass: a pair of integer coordinates with structural
equality (`__eq__`/`__hash__` derive from `(x, y)`). -/
structure Cell where
  x : Int
  y : Int
deriving DecidableEq, Repr

/-- The `Direction` enum in iteration order: UP, RIGHT, DOWN, LEFT. -/
def directions : List (Int × Int) := [(0, -1), (1, 0), (0, 1), (-1, 0)]

/-- `Cell.get_neighbor`: apply a direction's delta (no bounds check). -/
def get_neighbor (c : Cell) (d : Int × Int) : Cell :=
  ⟨c.x + d.1, c.y + d.2⟩

/-- The bounds check `0 <= c.x < W and 0 <= c.y < H` used throughout the code. -/
def in_bounds (W H : Nat) (c : Cell) : Prop :=
  0 ≤ c.x ∧ c.x < (W : Int) ∧ 0 ≤ c.y ∧ c.y < (H : Int)

instance (W H : Nat) (c : Cell) : Decidable (in_bounds W H c) :=
  inferInstanceAs (Decidable (_ ∧ _ ∧ _ ∧ _))

/-- All in-bounds cells of the W×H grid, as a finite set. -/
def gridCells (W H : Nat) : Finset Cell :=
  (Finset.range W ×ˢ Finset.range H).image fun p => ⟨p.1, p.2⟩

/-- The canonical ordering used by `is_wall_between` (both the generator's and
the game's copy): swap when `cell1.x > cell2.x or (cell1.x == cell2.x and
cell1.y > cell2.y)`, i.e. the lexicographically smaller cell first. -/
def wall_key (c1 c2 : Cell) : Cell × Cell :=
  if c1.x > c2.x ∨ (c1.x = c2.x ∧ c1.y > c2.y) then (c2, c1) else (c1, c2)

/-- `is_wall_between`: canonicalize the pair and test membership in the wall set. -/
def is_wall_between (walls : Finset (Cell × Cell)) (c1 c2 : Cell) : Bool :=
  decide (wall_key c1 c2 ∈ walls)

/-- The canonical ordering used by `_remove_wall`: swap when
`cell1.x > cell2.x or cell1.y > cell2.y`.  (It agrees with `wall_key` on
grid-adjacent pairs, the only pairs the program passes to it.) -/
def remove_key (c1 c2 : Cell) : Cell × Cell :=
  if c1.x > c2.x ∨ c1.y > c2.y then (c2, c1) else (c1, c2)

/-- `MazeGenerator._remove_wall`: canonicalize and delete the entry if present
(`Finset.erase` is a no-op when the entry is absent, matching the
`if (cell1, cell2) in self.walls` guard). -/
def remove_wall (walls : Finset (Cell × Cell)) (c1 c2 : Cell) : Finset (Cell × Cell) :=
  walls.erase (remove_key c1 c2)

/-- `MazeGenerator.init_walls`: for `y in range(H)`, `x in range(W)`, add the
wall to the right neighbor when `x < W - 1` and to the down neighbor when
`y < H - 1`. -/
def init_walls (W H : Nat) : Finset (Cell × Cell) :=
  (List.range H).foldl (fun s (y : Nat) =>
    (List.range W).foldl (fun s (x : Nat) =>
      let c : Cell := ⟨(x : Int), (y : Int)⟩
      let s1 := if x < W - 1 then insert (c, get_neighbor c (1, 0)) s else s
      if y < H - 1 then insert (c, get_neighbor c (0, 1)) s1 else s1) s) ∅

/-- `MazeGame.can_move`: reject an out-of-bounds destination (the game uses
`MAZE_SIZE`, here the parameter `N`, for both axes); a diagonal step requires
all four edges of the two L-shaped corner paths to be open; an orthogonal
step requires the single edge to be open. -/
def can_move (N : Nat) (walls : Finset (Cell × Cell)) (from_cell to_cell : Cell) : Bool :=
  if ¬ (0 ≤ to_cell.x ∧ to_cell.x < (N : Int) ∧ 0 ≤ to_cell.y ∧ to_cell.y < (N : Int)) then
    false
  else
    let dx := to_cell.x - from_cell.x
    let dy := to_cell.y - from_cell.y
    if dx ≠ 0 ∧ dy ≠ 0 then
      !is_wall_between walls from_cell ⟨from_cell.x + dx, from_cell.y⟩ &&
      !is_wall_between walls ⟨from_cell.x + dx, from_cell.y⟩ to_cell &&
      !is_wall_between walls from_cell ⟨from_cell.x, from_cell.y + dy⟩ &&
      !is_wall_between walls ⟨from_cell.x, from_cell.y + dy⟩ to_cell
    else
      !is_wall_between walls from_cell to_cell

/-- State of `generate_maze`'s builder loop: the wall set, the visited set,
the frontier (a duplicate-free list standing for the Python set — the index
drawn by `random.choice(list(frontier))` ranges over it), and the count `k`
of random draws consumed so far. -/
structure GenState where
  walls : Finset (Cell × Cell)
  visited : Finset Cell
  frontier : List Cell
  k : Nat

/-- `random.choice(list(frontier))`: the element at the oracle-chosen index.
(The default value is irrelevant: the loop only draws from a non-empty
frontier.) -/
def drawn_cell (f : Nat → Nat) (st : GenState) : Cell :=
  st.frontier.getD (f st.k % st.frontier.length) ⟨0, 0⟩

/-- The `neighbors` list of `generate_maze`: in-bounds neighbors of `current`
already in the maze, in direction order. -/
def visited_neighbors (W H : Nat) (visited : Finset Cell) (current : Cell) : List Cell :=
  directions.foldl (fun ns d =>
    let n := get_neighbor current d
    if in_bounds W H n ∧ n ∈ visited then ns ++ [n] else ns) []

/-- `MazeGenerator._add_frontier_cells`: append every in-bounds neighbor not
yet visited and not yet in the frontier. -/
def add_frontier_cells (W H : Nat) (cell : Cell) (visited : Finset Cell)
    (frontier : List Cell) : List Cell :=
  directions.foldl (fun fr d =>
    let n := get_neighbor cell d
    if in_bounds W H n ∧ n ∉ visited ∧ n ∉ fr then fr ++ [n] else fr) frontier

/-- One iteration of the builder loop: draw a frontier cell, collect its
visited neighbors; if any exist, connect to an oracle-chosen one, mark the
cell visited and extend the frontier (consuming two random draws); otherwise
(a branch the invariant proves dead) just drop the cell (one draw). -/
def gen_step (W H : Nat) (f : Nat → Nat) (st : GenState) : GenState :=
  let current := drawn_cell f st
  let frontier1 := st.frontier.erase current
  let ns := visited_neighbors W H st.visited current
  if ns = [] then
    { st with frontier := frontier1, k := st.k + 1 }
  else
    let nb := ns.getD (f (st.k + 1) % ns.length) ⟨0, 0⟩
    let visited1 := insert current st.visited
    { walls := remove_wall st.walls current nb,
      visited := visited1,
      frontier := add_frontier_cells W H current visited1 frontier1,
      k := st.k + 2 }

/-- The builder's `while frontier:` loop, fuel-indexed. -/
def gen_loop (W H : Nat) (f : Nat → Nat) : Nat → GenState → GenState
  | 0, st => st
  | fuel + 1, st =>
    if st.frontier = [] then st else gen_loop W H f fuel (gen_step W H f st)

/-- The builder's initial state: full walls, `visited = {(0,0)}`, frontier
seeded from the start cell. -/
def gen_init (W H : Nat) : GenState :=
  { walls := init_walls W H,
    visited := {⟨0, 0⟩},
    frontier := add_frontier_cells W H ⟨0, 0⟩ {⟨0, 0⟩} [],
    k := 0 }

/-- Fuel exceeding the number of iterations the builder loop can perform. -/
def gen_fuel (W H : Nat) : Nat := 2 * (W * H) + 1

/-- The state at the moment the builder's frontier loop terminates (before
`_ensure_path_exists` runs). -/
def gen_final (W H : Nat) (f : Nat → Nat) : GenState :=
  gen_loop W H f (gen_fuel W H) (gen_init W H)

/-- The `while queue:` loop of `MazeGenerator._has_path` (breadth-first
search), fuel-indexed: pop the head, succeed on the goal, otherwise enqueue
unvisited open in-bounds neighbors in direction order. -/
def has_path_loop (W H : Nat) (walls : Finset (Cell × Cell)) (e : Cell) :
    Nat → Finset Cell → List Cell → Bool
  | 0, _, _ => false
  | _ + 1, _, [] => false
  | fuel + 1, visited, current :: queue =>
    if current = e then true
    else
      let step := directions.foldl (fun (p : Finset Cell × List Cell) d =>
        let n := get_neighbor current d
        if in_bounds W H n ∧ n ∉ p.1 ∧ ¬ is_wall_between walls current n then
          (insert n p.1, p.2 ++ [n])
        else p) (visited, queue)
      has_path_loop W H walls e fuel step.1 step.2

/-- `MazeGenerator._has_path`: BFS from `s` with `visited = {s}`,
`queue = [s]`.  The fuel exceeds the number of iterations possible. -/
def has_path (W H : Nat) (walls : Finset (Cell × Cell)) (s e : Cell) : Bool :=
  has_path_loop W H walls e (2 * (W * H) + 2) {s} [s]

/-- State of `_create_path`'s loop: walls, visited set, path stack, current cell. -/
structure PathState where
  walls : Finset (Cell × Cell)
  visited : Finset Cell
  path : List Cell
  current : Cell

/-- The preferred move of `_create_path`: reduce the x gap toward the goal
first, then the y gap (`RIGHT`/`LEFT`/`DOWN`/`UP` in the code's elif order). -/
def preferred_next (e c : Cell) : Cell :=
  if c.x < e.x then ⟨c.x + 1, c.y⟩
  else if c.x > e.x then ⟨c.x - 1, c.y⟩
  else if c.y < e.y then ⟨c.x, c.y + 1⟩
  else ⟨c.x, c.y - 1⟩

/-- The fallback of `_create_path`: when the preferred cell is out of bounds
or already on the path, take the first in-bounds unvisited neighbor in
direction order, keeping the preferred cell if none exists. -/
def fallback_next (W H : Nat) (visited : Finset Cell) (c next0 : Cell) : Cell :=
  if ¬ in_bounds W H next0 ∨ next0 ∈ visited then
    match directions.find? (fun d =>
        decide (in_bounds W H (get_neighbor c d) ∧ get_neighbor c d ∉ visited)) with
    | some d => get_neighbor c d
    | none => next0
  else next0

/-- The `while current != end:` loop of `_create_path`, fuel-indexed.  The
Python guard `if next_cell and (bounds)` reduces to the bounds check because a
`Cell` dataclass instance is always truthy; the `else` branch pops the path
(backtracks) and stops when the path empties. -/
def create_path_loop (W H : Nat) (e : Cell) : Nat → PathState → PathState
  | 0, st => st
  | fuel + 1, st =>
    if st.current = e then st
    else
      let nx := fallback_next W H st.visited st.current (preferred_next e st.current)
      if in_bounds W H nx then
        create_path_loop W H e fuel
          { walls := remove_wall st.walls st.current nx,
            visited := insert nx st.visited,
            path := st.path ++ [nx],
            current := nx }
      else
        match st.path.dropLast.getLast? with
        | none => { st with path := st.path.dropLast }
        | some c2 => create_path_loop W H e fuel
            { st with path := st.path.dropLast, current := c2 }

/-- Fuel exceeding the number of iterations `_create_path`'s loop can perform. -/
def path_fuel (W H : Nat) : Nat := (W * H + 1) * (W + H + 1)

/-- `MazeGenerator._create_path`: carve a path from `s` to `e`, starting with
`visited = {s}`, `path = [s]`. -/
def create_path (W H : Nat) (walls : Finset (Cell × Cell)) (s e : Cell) : PathState :=
  create_path_loop W H e (path_fuel W H)
    { walls := walls, visited := {s}, path := [s], current := s }

/-- `MazeGenerator._ensure_path_exists`: run the repair only when the BFS
check fails. -/
def ensure_path_exists (W H : Nat) (walls : Finset (Cell × Cell)) (s e : Cell) :
    Finset (Cell × Cell) :=
  if has_path W H walls s e then walls else (create_path W H walls s e).walls

/-- `MazeGenerator.generate_maze`: run the builder loop to completion, then
the connectivity guard for `(0,0)` to `(W-1, H-1)`, and return the walls. -/
def generate_maze (W H : Nat) (f : Nat → Nat) : Finset (Cell × Cell) :=
  let st := gen_final W H f
  ensure_path_exists W H st.walls ⟨0, 0⟩ ⟨(W : Int) - 1, (H : Int) - 1⟩

/-- Reachability through open (non-walled) grid-adjacent edges: the
specification-level notion of connectivity the claims are about. -/
inductive ReachableOpen (W H : Nat) (walls : Finset (Cell × Cell)) : Cell → Cell → Prop
  | refl (a : Cell) : ReachableOpen W H walls a a
  | step {a b : Cell} (d : Int × Int) (hd : d ∈ directions)
      (hr : ReachableOpen W H walls a b)
      (hb : in_bounds W H (get_neighbor b d))
      (hw : is_wall_between walls b (get_neighbor b d) = false) :
      ReachableOpen W H walls a (get_neighbor b d)

/-! ## Basic lemmas: canonical keys, the initial wall set, the grid -/

lemma wall_key_comm (c1 c2 : Cell) : wall_key c1 c2 = wall_key c2 c1 := by
  unfold wall_key
  by_cases h : c1 = c2
  · subst h; split_ifs <;> rfl
  · have hxy : c1.x ≠ c2.x ∨ c1.y ≠ c2.y := by
      by_contra hc
      push_neg at hc
      exact h (by cases c1; cases c2; simp_all)
    split_ifs with h1 h2 h2 <;> first
      | rfl
      | (exfalso; rcases hxy with hx | hy <;> omega)

lemma is_wall_between_comm (walls : Finset (Cell × Cell)) (c1 c2 : Cell) :
    is_wall_between walls c1 c2 = is_wall_between walls c2 c1 := by
  unfold is_wall_between
  rw [wall_key_comm]

lemma mem_init_inner (W H : Nat) (y : Nat) (l : List Nat) (s : Finset (Cell × Cell))
    (p : Cell × Cell) :
    p ∈ l.foldl (fun s (x : Nat) =>
      let c : Cell := ⟨(x : Int), (y : Int)⟩
      let s1 := if x < W - 1 then insert (c, get_neighbor c (1, 0)) s else s
      if y < H - 1 then insert (c, get_neighbor c (0, 1)) s1 else s1) s ↔
    p ∈ s ∨ ∃ x ∈ l, (x < W - 1 ∧ p = (⟨x, y⟩, ⟨(x : Int) + 1, y⟩)) ∨
      (y < H - 1 ∧ p = (⟨x, y⟩, ⟨x, (y : Int) + 1⟩)) := by
  induction l generalizing s with
  | nil => simp
  | cons a l ih =>
    rw [List.foldl_cons, ih]
    have hstep : p ∈ (fun s (x : Nat) =>
        let c : Cell := ⟨(x : Int), (y : Int)⟩
        let s1 := if x < W - 1 then insert (c, get_neighbor c (1, 0)) s else s
        if y < H - 1 then insert (c, get_neighbor c (0, 1)) s1 else s1) s a ↔
        p ∈ s ∨ (a < W - 1 ∧ p = (⟨a, y⟩, ⟨(a : Int) + 1, y⟩)) ∨
          (y < H - 1 ∧ p = (⟨a, y⟩, ⟨a, (y : Int) + 1⟩)) := by
      simp only [get_neighbor]
      split_ifs with h1 h2 h2 <;>
        simp [Finset.mem_insert, Cell.mk.injEq, h1, h2] <;> tauto
    rw [hstep]
    simp only [List.mem_cons]
    constructor
    · rintro ((hp | hc) | ⟨x, hx, hc⟩)
      · exact Or.inl hp
      · exact Or.inr ⟨a, Or.inl rfl, hc⟩
      · exact Or.inr ⟨x, Or.inr hx, hc⟩
    · rintro (hp | ⟨x, (rfl | hx), hc⟩)
      · exact Or.inl (Or.inl hp)
      · exact Or.inl (Or.inr hc)
      · exact Or.inr ⟨x, hx, hc⟩

lemma mem_init_outer (W H : Nat) (l : List Nat) (s : Finset (Cell × Cell))
    (p : Cell × Cell) :
    p ∈ l.foldl (fun s (y : Nat) =>
      (List.range W).foldl (fun s (x : Nat) =>
        let c : Cell := ⟨(x : Int), (y : Int)⟩
        let s1 := if x < W - 1 then insert (c, get_neighbor c (1, 0)) s else s
        if y < H - 1 then insert (c, get_neighbor c (0, 1)) s1 else s1) s) s ↔
    p ∈ s ∨ ∃ y ∈ l, ∃ x < W, (x < W - 1 ∧ p = (⟨x, y⟩, ⟨(x : Int) + 1, y⟩)) ∨
      (y < H - 1 ∧ p = (⟨x, y⟩, ⟨x, (y : Int) + 1⟩)) := by
  induction l generalizing s with
  | nil => simp
  | cons a l ih =>
    rw [List.foldl_cons, ih, mem_init_inner]
    simp only [List.mem_cons, List.mem_range]
    constructor
    · rintro ((hp | ⟨x, hx, hc⟩) | ⟨z, hz, hc⟩)
      · exact Or.inl hp
      · exact Or.inr ⟨a, Or.inl rfl, x, hx, hc⟩
      · exact Or.inr ⟨z, Or.inr hz, hc⟩
    · rintro (hp | ⟨z, (rfl | hz), hc⟩)
      · exact Or.inl (Or.inl hp)
      · exact Or.inl (Or.inr hc)
      · exact Or.inr ⟨z, hz, hc⟩

lemma mem_init_walls (W H : Nat) (p : Cell × Cell) :
    p ∈ init_walls W H ↔
    (∃ x y : Nat, x + 1 < W ∧ y < H ∧ p = (⟨x, y⟩, ⟨(x : Int) + 1, y⟩)) ∨
    (∃ x y : Nat, x < W ∧ y + 1 < H ∧ p = (⟨x, y⟩, ⟨x, (y : Int) + 1⟩)) := by
  unfold init_walls
  rw [mem_init_outer]
  simp only [Finset.not_mem_empty, false_or, List.mem_range]
  constructor
  · rintro ⟨y, hy, x, hx, (⟨h1, rfl⟩ | ⟨h1, rfl⟩)⟩
    · exact Or.inl ⟨x, y, by omega, hy, rfl⟩
    · exact Or.inr ⟨x, y, hx, by omega, rfl⟩
  · rintro (⟨x, y, h1, h2, rfl⟩ | ⟨x, y, h1, h2, rfl⟩)
    · exact ⟨y, h2, x, by omega, Or.inl ⟨by omega, rfl⟩⟩
    · exact ⟨y, by omega, x, h1, Or.inr ⟨by omega, rfl⟩⟩

@[simp] lemma Cell_x_mk (a b : Int) : (Cell.mk a b).x = a := rfl

@[simp] lemma Cell_y_mk (a b : Int) : (Cell.mk a b).y = b := rfl

lemma mem_gridCells (W H : Nat) (c : Cell) : c ∈ gridCells W H ↔ in_bounds W H c := by
  obtain ⟨cx, cy⟩ := c
  unfold gridCells in_bounds
  simp only [Finset.mem_image, Finset.mem_product, Finset.mem_range, Prod.exists,
    Cell_x_mk, Cell_y_mk, Cell.mk.injEq]
  constructor
  · rintro ⟨x, y, ⟨hx, hy⟩, rfl, rfl⟩
    refine ⟨by positivity, by exact_mod_cast hx, by positivity, by exact_mod_cast hy⟩
  · rintro ⟨h1, h2, h3, h4⟩
    exact ⟨cx.toNat, cy.toNat, ⟨by omega, by omega⟩, by omega, by omega⟩

lemma gridCells_card (W H : Nat) : (gridCells W H).card = W * H := by
  unfold gridCells
  rw [Finset.card_image_of_injective _ (fun p q h => ?_), Finset.card_product,
    Finset.card_range, Finset.card_range]
  simpa [Cell.mk.injEq, Prod.ext_iff, Nat.cast_inj] using h

lemma init_walls_card (W H : Nat) : (init_walls W H).card = 2 * W * H - W - H := by
  classical
  have hsplit : init_walls W H =
      ((Finset.range (W - 1) ×ˢ Finset.range H).image
        fun q => ((⟨q.1, q.2⟩ : Cell), (⟨(q.1 : Int) + 1, q.2⟩ : Cell))) ∪
      ((Finset.range W ×ˢ Finset.range (H - 1)).image
        fun q => ((⟨q.1, q.2⟩ : Cell), (⟨q.1, (q.2 : Int) + 1⟩ : Cell))) := by
    ext p
    rw [mem_init_walls]
    simp only [Finset.mem_union, Finset.mem_image, Finset.mem_product, Finset.mem_range,
      Prod.exists]
    constructor
    · rintro (⟨x, y, h1, h2, rfl⟩ | ⟨x, y, h1, h2, rfl⟩)
      · exact Or.inl ⟨x, y, ⟨by omega, h2⟩, rfl⟩
      · exact Or.inr ⟨x, y, ⟨h1, by omega⟩, rfl⟩
    · rintro (⟨x, y, ⟨h1, h2⟩, rfl⟩ | ⟨x, y, ⟨h1, h2⟩, rfl⟩)
      · exact Or.inl ⟨x, y, by omega, h2, rfl⟩
      · exact Or.inr ⟨x, y, h1, by omega, rfl⟩
  have hinj1 : Function.Injective
      (fun q : Nat × Nat => ((⟨q.1, q.2⟩ : Cell), (⟨(q.1 : Int) + 1, q.2⟩ : Cell))) := by
    rintro ⟨a, b⟩ ⟨c, d⟩ h
    simp only [Prod.mk.injEq, Cell.mk.injEq, Nat.cast_inj] at h
    simp [h.1.1, h.1.2]
  have hinj2 : Function.Injective
      (fun q : Nat × Nat => ((⟨q.1, q.2⟩ : Cell), (⟨q.1, (q.2 : Int) + 1⟩ : Cell))) := by
    rintro ⟨a, b⟩ ⟨c, d⟩ h
    simp only [Prod.mk.injEq, Cell.mk.injEq, Nat.cast_inj] at h
    simp [h.1.1, h.1.2]
  have hdisj : Disjoint
      ((Finset.range (W - 1) ×ˢ Finset.range H).image
        fun q => ((⟨q.1, q.2⟩ : Cell), (⟨(q.1 : Int) + 1, q.2⟩ : Cell)))
      ((Finset.range W ×ˢ Finset.range (H - 1)).image
        fun q => ((⟨q.1, q.2⟩ : Cell), (⟨q.1, (q.2 : Int) + 1⟩ : Cell))) := by
    rw [Finset.disjoint_left]
    rintro p hp hq
    simp only [Finset.mem_image, Finset.mem_product, Finset.mem_range, Prod.exists] at hp hq
    obtain ⟨x, y, _, rfl⟩ := hp
    obtain ⟨x2, y2, _, hpq⟩ := hq
    simp only [Prod.mk.injEq, Cell.mk.injEq] at hpq
    omega
  rw [hsplit, Finset.card_union_of_disjoint hdisj,
    Finset.card_image_of_injective _ hinj1, Finset.card_image_of_injective _ hinj2,
    Finset.card_product, Finset.card_product, Finset.card_range, Finset.card_range,
    Finset.card_range, Finset.card_range]
  rcases W with _ | a
  · simp
  rcases H with _ | b
  · simp
  have h1 : a + 1 - 1 = a := by omega
  have h2 : b + 1 - 1 = b := by omega
  have h3 : 2 * (a + 1) * (b + 1) = 2 * (a * b) + 2 * a + 2 * b + 2 := by ring
  have h4 : a * (b + 1) = a * b + a := by ring
  have h5 : (a + 1) * b = a * b + b := by ring
  rw [h1, h2, h4, h5, h3]
  generalize a * b = k
  omega

lemma init_walls_fst_ne_snd {W H : Nat} {p : Cell × Cell} (hp : p ∈ init_walls W H) :
    p.1 ≠ p.2 := by
  rw [mem_init_walls] at hp
  rcases hp with ⟨x, y, _, _, rfl⟩ | ⟨x, y, _, _, rfl⟩ <;>
    simp only [ne_eq, Prod.mk.injEq, Cell.mk.injEq] <;> intro hc <;> omega

lemma init_walls_bounds {W H : Nat} {p : Cell × Cell} (hp : p ∈ init_walls W H) :
    in_bounds W H p.1 ∧ in_bounds W H p.2 := by
  rw [mem_init_walls] at hp
  unfold in_bounds
  rcases hp with ⟨x, y, h1, h2, rfl⟩ | ⟨x, y, h1, h2, rfl⟩ <;>
    constructor <;> refine ⟨?_, ?_, ?_, ?_⟩ <;> simp <;> omega

lemma wall_key_of_init {W H : Nat} {p : Cell × Cell} (hp : p ∈ init_walls W H) :
    wall_key p.1 p.2 = p := by
  rw [mem_init_walls] at hp
  rcases hp with ⟨x, y, _, _, rfl⟩ | ⟨x, y, _, _, rfl⟩ <;>
    · unfold wall_key
      rw [if_neg]
      simp only [not_or, not_and, not_lt]
      constructor <;> intros <;> omega

/-- The endpoints of an `init_walls` entry, as an unordered pair, determine it. -/
lemma init_walls_eq_of_same_ends {W H : Nat} {p q : Cell × Cell}
    (hp : p ∈ init_walls W H) (hq : q ∈ init_walls W H)
    (h : (p.1 = q.1 ∧ p.2 = q.2) ∨ (p.1 = q.2 ∧ p.2 = q.1)) : p = q := by
  rcases h with ⟨h1, h2⟩ | ⟨h1, h2⟩
  · exact Prod.ext h1 h2
  · exfalso
    rw [mem_init_walls] at hp hq
    rcases hp with ⟨x, y, _, _, rfl⟩ | ⟨x, y, _, _, rfl⟩ <;>
      rcases hq with ⟨a, b, _, _, rfl⟩ | ⟨a, b, _, _, rfl⟩ <;>
      simp only [Cell.mk.injEq] at h1 h2 <;> omega

/-- For a step along one of the four directions, `_remove_wall`'s
canonicalization and `is_wall_between`'s agree. -/
lemma remove_key_eq_wall_key {c : Cell} {d : Int × Int} (hd : d ∈ directions) :
    remove_key c (get_neighbor c d) = wall_key c (get_neighbor c d) := by
  have hd4 : d = (0, -1) ∨ d = (1, 0) ∨ d = (0, 1) ∨ d = (-1, 0) := by
    simpa [directions] using hd
  unfold remove_key wall_key get_neighbor
  rcases hd4 with rfl | rfl | rfl | rfl <;> simp

/-! ## Lemmas about the builder's helper folds -/

lemma neg_mem_directions {d : Int × Int} (hd : d ∈ directions) :
    (-d.1, -d.2) ∈ directions := by
  rcases (by simpa [directions] using hd : d = (0, -1) ∨ d = (1, 0) ∨ d = (0, 1) ∨
    d = (-1, 0)) with rfl | rfl | rfl | rfl <;> simp [directions]

lemma get_neighbor_neg (c : Cell) (d : Int × Int) :
    get_neighbor (get_neighbor c d) (-d.1, -d.2) = c := by
  unfold get_neighbor
  cases c
  simp only [Cell_x_mk, Cell_y_mk, Cell.mk.injEq]
  omega

lemma get_neighbor_ne (c : Cell) {d : Int × Int} (hd : d ∈ directions) :
    get_neighbor c d ≠ c := by
  rcases (by simpa [directions] using hd : d = (0, -1) ∨ d = (1, 0) ∨ d = (0, 1) ∨
    d = (-1, 0)) with rfl | rfl | rfl | rfl <;>
    · unfold get_neighbor
      cases c
      simp only [Cell_x_mk, Cell_y_mk, ne_eq, Cell.mk.injEq]
      omega

lemma mem_visited_neighbors_fold (W H : Nat) (visited : Finset Cell) (current : Cell)
    (ds : List (Int × Int)) (acc : List Cell) (a : Cell) :
    a ∈ ds.foldl (fun ns d =>
      let n := get_neighbor current d
      if in_bounds W H n ∧ n ∈ visited then ns ++ [n] else ns) acc ↔
    a ∈ acc ∨ ∃ d ∈ ds, a = get_neighbor current d ∧ in_bounds W H a ∧ a ∈ visited := by
  induction ds generalizing acc with
  | nil => simp
  | cons d ds ih =>
    rw [List.foldl_cons, ih]
    simp only [List.mem_cons]
    by_cases hc : in_bounds W H (get_neighbor current d) ∧ get_neighbor current d ∈ visited
    · simp only [if_pos hc, List.mem_append, List.mem_singleton]
      constructor
      · rintro ((ha | rfl) | ⟨e, he, hp⟩)
        · exact Or.inl ha
        · exact Or.inr ⟨d, Or.inl rfl, rfl, hc.1, hc.2⟩
        · exact Or.inr ⟨e, Or.inr he, hp⟩
      · rintro (ha | ⟨e, (rfl | he), hp⟩)
        · exact Or.inl (Or.inl ha)
        · exact Or.inl (Or.inr hp.1)
        · exact Or.inr ⟨e, he, hp⟩
    · simp only [if_neg hc]
      constructor
      · rintro (ha | ⟨e, he, hp⟩)
        · exact Or.inl ha
        · exact Or.inr ⟨e, Or.inr he, hp⟩
      · rintro (ha | ⟨e, (rfl | he), hp⟩)
        · exact Or.inl ha
        · rcases hp with ⟨rfl, hb, hv⟩
          exact absurd ⟨hb, hv⟩ hc
        · exact Or.inr ⟨e, he, hp⟩

lemma mem_visited_neighbors (W H : Nat) (visited : Finset Cell) (current : Cell) (a : Cell) :
    a ∈ visited_neighbors W H visited current ↔
    ∃ d ∈ directions, a = get_neighbor current d ∧ in_bounds W H a ∧ a ∈ visited := by
  unfold visited_neighbors
  rw [mem_visited_neighbors_fold]
  simp

lemma mem_add_frontier_fold (W H : Nat) (cell : Cell) (visited : Finset Cell)
    (ds : List (Int × Int)) (fr : List Cell) (a : Cell) :
    a ∈ ds.foldl (fun fr d =>
      let n := get_neighbor cell d
      if in_bounds W H n ∧ n ∉ visited ∧ n ∉ fr then fr ++ [n] else fr) fr ↔
    a ∈ fr ∨ ∃ d ∈ ds, a = get_neighbor cell d ∧ in_bounds W H a ∧ a ∉ visited := by
  induction ds generalizing fr with
  | nil => simp
  | cons d ds ih =>
    rw [List.foldl_cons, ih]
    simp only [List.mem_cons]
    by_cases hc : in_bounds W H (get_neighbor cell d) ∧ get_neighbor cell d ∉ visited ∧
        get_neighbor cell d ∉ fr
    · simp only [if_pos hc, List.mem_append, List.mem_singleton]
      constructor
      · rintro ((ha | rfl) | ⟨e, he, hp⟩)
        · exact Or.inl ha
        · exact Or.inr ⟨d, Or.inl rfl, rfl, hc.1, hc.2.1⟩
        · exact Or.inr ⟨e, Or.inr he, hp⟩
      · rintro (ha | ⟨e, (rfl | he), hp⟩)
        · exact Or.inl (Or.inl ha)
        · exact Or.inl (Or.inr hp.1)
        · exact Or.inr ⟨e, he, hp⟩
    · simp only [if_neg hc]
      constructor
      · rintro (ha | ⟨e, he, hp⟩)
        · exact Or.inl ha
        · exact Or.inr ⟨e, Or.inr he, hp⟩
      · rintro (ha | ⟨e, (rfl | he), hp⟩)
        · exact Or.inl ha
        · -- the condition failed: the neighbor is already in the accumulator
          rcases hp with ⟨rfl, hb, hv⟩
          push_neg at hc
          exact Or.inl (hc hb hv)
        · exact Or.inr ⟨e, he, hp⟩

lemma mem_add_frontier_cells (W H : Nat) (cell : Cell) (visited : Finset Cell)
    (frontier : List Cell) (a : Cell) :
    a ∈ add_frontier_cells W H cell visited frontier ↔
    a ∈ frontier ∨ ∃ d ∈ directions, a = get_neighbor cell d ∧ in_bounds W H a ∧
      a ∉ visited := by
  unfold add_frontier_cells
  exact mem_add_frontier_fold W H cell visited directions frontier a

lemma add_frontier_fold_nodup (W H : Nat) (cell : Cell) (visited : Finset Cell)
    (ds : List (Int × Int)) (fr : List Cell) (h : fr.Nodup) :
    (ds.foldl (fun fr d =>
      let n := get_neighbor cell d
      if in_bounds W H n ∧ n ∉ visited ∧ n ∉ fr then fr ++ [n] else fr) fr).Nodup := by
  induction ds generalizing fr with
  | nil => exact h
  | cons d ds ih =>
    rw [List.foldl_cons]
    apply ih
    by_cases hc : in_bounds W H (get_neighbor cell d) ∧ get_neighbor cell d ∉ visited ∧
        get_neighbor cell d ∉ fr
    · simp only [if_pos hc]
      exact List.Nodup.append h (List.nodup_singleton _)
        (by simpa using fun hx => (hc.2.2 hx).elim)
    · simpa only [if_neg hc] using h

lemma add_frontier_cells_nodup (W H : Nat) (cell : Cell) (visited : Finset Cell)
    (frontier : List Cell) (h : frontier.Nodup) :
    (add_frontier_cells W H cell visited frontier).Nodup :=
  add_frontier_fold_nodup W H cell visited directions frontier h

/-! ## Wall-set query lemmas and the open-edge graph -/

lemma is_wall_between_false_iff (walls : Finset (Cell × Cell)) (c1 c2 : Cell) :
    is_wall_between walls c1 c2 = false ↔ wall_key c1 c2 ∉ walls := by
  unfold is_wall_between
  simp

lemma is_wall_between_erase_false_iff (walls : Finset (Cell × Cell)) (q : Cell × Cell)
    (c1 c2 : Cell) :
    is_wall_between (walls.erase q) c1 c2 = false ↔
    (wall_key c1 c2 = q ∨ is_wall_between walls c1 c2 = false) := by
  rw [is_wall_between_false_iff, is_wall_between_false_iff, Finset.mem_erase]
  by_cases h : wall_key c1 c2 = q <;> simp [h]

lemma wall_key_cases (a b : Cell) : wall_key a b = (a, b) ∨ wall_key a b = (b, a) := by
  unfold wall_key
  split_ifs <;> simp

lemma wall_key_other {c0 z : Cell} {q : Cell × Cell} (h : wall_key c0 z = q) :
    q = (c0, z) ∨ q = (z, c0) := by
  rcases wall_key_cases c0 z with h1 | h1 <;> rw [h1] at h
  · exact Or.inl h.symm
  · exact Or.inr h.symm

lemma ReachableOpen.mono {W H : Nat} {walls walls2 : Finset (Cell × Cell)} {a b : Cell}
    (hsub : walls2 ⊆ walls) (h : ReachableOpen W H walls a b) :
    ReachableOpen W H walls2 a b := by
  induction h with
  | refl => exact .refl _
  | step d hd hr hb hw ih =>
    refine .step d hd ih hb ?_
    rw [is_wall_between_false_iff] at hw ⊢
    exact fun hmem => hw (hsub hmem)

lemma ReachableOpen.in_bounds_end {W H : Nat} {walls : Finset (Cell × Cell)} {a b : Cell}
    (ha : in_bounds W H a) (h : ReachableOpen W H walls a b) : in_bounds W H b := by
  induction h with
  | refl => exact ha
  | step d hd hr hb hw ih => exact hb

/-- The open-edge graph on the in-bounds cells: two cells are adjacent when
they form an entry of the full wall grid (in either order) whose wall is
absent from the current wall set. -/
def open_graph (W H : Nat) (walls : Finset (Cell × Cell)) :
    SimpleGraph {c : Cell // in_bounds W H c} where
  Adj u v := ((u.1, v.1) ∈ init_walls W H ∨ (v.1, u.1) ∈ init_walls W H) ∧
    is_wall_between walls u.1 v.1 = false
  symm := by
    rintro u v ⟨hadj, hw⟩
    exact ⟨hadj.symm, by rw [is_wall_between_comm]; exact hw⟩
  loopless := by
    rintro u ⟨hadj, hw⟩
    rcases hadj with h | h <;> exact init_walls_fst_ne_snd h rfl

lemma open_graph_adj {W H : Nat} {walls : Finset (Cell × Cell)}
    {u v : {c : Cell // in_bounds W H c}} :
    (open_graph W H walls).Adj u v ↔
    ((u.1, v.1) ∈ init_walls W H ∨ (v.1, u.1) ∈ init_walls W H) ∧
      is_wall_between walls u.1 v.1 = false := Iff.rfl

/-- In the fully-walled grid the open-edge graph has no edges at all, hence
no cycles. -/
lemma open_graph_init_acyclic (W H : Nat) : (open_graph W H (init_walls W H)).IsAcyclic := by
  intro v c hc
  cases c with
  | nil => exact hc.not_of_nil
  | cons h p =>
    obtain ⟨hadj, hw⟩ := h
    rw [is_wall_between_false_iff] at hw
    rcases hadj with hm | hm
    · exact hw (by rw [wall_key_of_init hm]; exact hm)
    · exact hw (by rw [wall_key_comm, wall_key_of_init hm]; exact hm)

/-- Removing one wall `q` whose endpoint `c0` was incident to no previously
open edge cannot create a cycle: the new edge is a pendant edge at `c0`. -/
lemma open_graph_erase_acyclic {W H : Nat} {walls : Finset (Cell × Cell)}
    {q : Cell × Cell} {c0 : Cell}
    (hq : q ∈ init_walls W H) (hend : q.1 = c0 ∨ q.2 = c0)
    (hfresh : ∀ p ∈ init_walls W H, p ∉ walls → p.1 ≠ c0 ∧ p.2 ≠ c0)
    (hacyc : (open_graph W H walls).IsAcyclic) :
    (open_graph W H (walls.erase q)).IsAcyclic := by
  have hc0b : in_bounds W H c0 := by
    rcases hend with h | h
    · exact h ▸ (init_walls_bounds hq).1
    · exact h ▸ (init_walls_bounds hq).2
  have hqne : q.1 ≠ q.2 := init_walls_fst_ne_snd hq
  set c0v : {c : Cell // in_bounds W H c} := ⟨c0, hc0b⟩ with hc0v
  have hGfresh : ∀ z, ¬ (open_graph W H walls).Adj c0v z := by
    rintro z ⟨hadj, hw⟩
    rw [is_wall_between_false_iff] at hw
    rcases hadj with hm | hm
    · exact (hfresh _ hm (by rwa [wall_key_of_init hm] at hw)).1 rfl
    · exact (hfresh _ hm (by rwa [wall_key_comm, wall_key_of_init hm] at hw)).2 rfl
  have hkey : ∀ z : {c : Cell // in_bounds W H c},
      (open_graph W H (walls.erase q)).Adj c0v z → wall_key c0 z.1 = q := by
    rintro z ⟨hadj, hw⟩
    rw [is_wall_between_erase_false_iff] at hw
    rcases hw with hk | hw
    · exact hk
    · exact absurd ⟨hadj, hw⟩ (hGfresh z)
  have huniq : ∀ z w : {c : Cell // in_bounds W H c},
      (open_graph W H (walls.erase q)).Adj c0v z →
      (open_graph W H (walls.erase q)).Adj c0v w → z = w := by
    intro z w hz hw
    have hz1 := wall_key_other (hkey z hz)
    have hw1 := wall_key_other (hkey w hw)
    refine Subtype.ext ?_
    rcases hz1 with hA | hA <;> subst hA <;> rcases hw1 with hB | hB <;>
      simp only [Prod.mk.injEq] at hB <;>
      first
        | exact hB.2
        | exact hB.1
        | exact hB.2.trans hB.1
        | exact hB.1.trans hB.2
  intro v c hc
  by_cases hmem : c0v ∈ c.support
  · have hc2 := hc.rotate hmem
    set c2 := c.rotate hmem with hc2def
    clear_value c2
    cases c2 with
    | nil => exact hc2.not_of_nil
    | cons h p =>
      rename_i x
      rw [SimpleGraph.Walk.cons_isCycle_iff] at hc2
      have hxne : x ≠ c0v := fun hxx =>
        (open_graph W H (walls.erase q)).loopless _ (hxx ▸ h)
      obtain ⟨z, hzadj, hzmem⟩ : ∃ z, (open_graph W H (walls.erase q)).Adj c0v z ∧
          s(c0v, z) ∈ p.reverse.edges := by
        cases hrev : p.reverse with
        | nil => exact absurd rfl hxne
        | cons h2 p2 => exact ⟨_, h2, by simp⟩
      have hzx : z = x := huniq z x hzadj h
      rw [SimpleGraph.Walk.edges_reverse, List.mem_reverse, hzx] at hzmem
      exact hc2.2 hzmem
  · have hedges : ∀ e ∈ c.edges, e ∈ (open_graph W H walls).edgeSet := by
      intro e he
      refine Sym2.ind (fun u w he => ?_) e he
      obtain ⟨hadj, hw⟩ := c.adj_of_mem_edges he
      rw [is_wall_between_erase_false_iff] at hw
      rcases hw with hk | hw
      · exfalso
        have hor : u.1 = c0 ∨ w.1 = c0 := by
          rcases wall_key_other hk with hA | hB
          · rw [hA] at hend
            rcases hend with h1 | h1
            · exact Or.inl h1
            · exact Or.inr h1
          · rw [hB] at hend
            rcases hend with h1 | h1
            · exact Or.inr h1
            · exact Or.inl h1
        rcases hor with h1 | h1
        · exact hmem ((Subtype.ext h1 : u = c0v) ▸
            SimpleGraph.Walk.fst_mem_support_of_mem_edges c he)
        · exact hmem ((Subtype.ext h1 : w = c0v) ▸
            SimpleGraph.Walk.snd_mem_support_of_mem_edges c he)
      · exact ⟨hadj, hw⟩
    exact hacyc (c.transfer _ hedges) (hc.transfer hedges)

/-! ## The builder loop invariant -/

lemma getD_mod_mem {l : List Cell} (h : l ≠ []) (i : Nat) (d : Cell) :
    l.getD (i % l.length) d ∈ l := by
  have hlen : 0 < l.length := List.length_pos.mpr h
  have hi : i % l.length < l.length := Nat.mod_lt _ hlen
  rw [List.getD_eq_getElem l d hi]
  exact List.getElem_mem hi

lemma drawn_cell_mem {f : Nat → Nat} {st : GenState} (h : st.frontier ≠ []) :
    drawn_cell f st ∈ st.frontier :=
  getD_mod_mem h _ _

/-- Any in-bounds grid-adjacent pair occurs in `init_walls`, in one order. -/
lemma adj_pair_mem_init {W H : Nat} {c : Cell} {d : Int × Int} (hd : d ∈ directions)
    (hc : in_bounds W H c) (hn : in_bounds W H (get_neighbor c d)) :
    (c, get_neighbor c d) ∈ init_walls W H ∨ (get_neighbor c d, c) ∈ init_walls W H := by
  obtain ⟨cx, cy⟩ := c
  rcases (by simpa [directions] using hd : d = (0, -1) ∨ d = (1, 0) ∨ d = (0, 1) ∨
      d = (-1, 0)) with rfl | rfl | rfl | rfl <;>
    unfold in_bounds at hc hn <;>
    simp only [get_neighbor, Cell_x_mk, Cell_y_mk] at hc hn ⊢
  · -- UP: (neighbor, c) is a down-wall entry
    refine Or.inr ((mem_init_walls ..).mpr (Or.inr ⟨cx.toNat, (cy - 1).toNat,
      by omega, by omega, ?_⟩))
    simp only [Prod.mk.injEq, Cell.mk.injEq]
    refine ⟨⟨by omega, by omega⟩, by omega, by omega⟩
  · -- RIGHT: (c, neighbor) is a right-wall entry
    refine Or.inl ((mem_init_walls ..).mpr (Or.inl ⟨cx.toNat, cy.toNat,
      by omega, by omega, ?_⟩))
    simp only [Prod.mk.injEq, Cell.mk.injEq]
    refine ⟨⟨by omega, by omega⟩, by omega, by omega⟩
  · -- DOWN: (c, neighbor) is a down-wall entry
    refine Or.inl ((mem_init_walls ..).mpr (Or.inr ⟨cx.toNat, cy.toNat,
      by omega, by omega, ?_⟩))
    simp only [Prod.mk.injEq, Cell.mk.injEq]
    refine ⟨⟨by omega, by omega⟩, by omega, by omega⟩
  · -- LEFT: (neighbor, c) is a right-wall entry
    refine Or.inr ((mem_init_walls ..).mpr (Or.inl ⟨(cx - 1).toNat, cy.toNat,
      by omega, by omega, ?_⟩))
    simp only [Prod.mk.injEq, Cell.mk.injEq]
    refine ⟨⟨by omega, by omega⟩, by omega, by omega⟩

lemma wall_key_mem_init {W H : Nat} {c : Cell} {d : Int × Int} (hd : d ∈ directions)
    (hc : in_bounds W H c) (hn : in_bounds W H (get_neighbor c d)) :
    wall_key c (get_neighbor c d) ∈ init_walls W H := by
  rcases adj_pair_mem_init hd hc hn with hm | hm
  · rw [show wall_key c (get_neighbor c d) = (c, get_neighbor c d) from
      wall_key_of_init hm]
    exact hm
  · rw [wall_key_comm, show wall_key (get_neighbor c d) c = (get_neighbor c d, c) from
      wall_key_of_init hm]
    exact hm

/-- The invariant maintained by every iteration of the builder loop. -/
structure GenInv (W H : Nat) (st : GenState) : Prop where
  nodup : st.frontier.Nodup
  fr_bounds : ∀ c ∈ st.frontier, in_bounds W H c
  fr_not_vis : ∀ c ∈ st.frontier, c ∉ st.visited
  fr_nbr : ∀ c ∈ st.frontier, ∃ d ∈ directions,
    in_bounds W H (get_neighbor c d) ∧ get_neighbor c d ∈ st.visited
  vis_bounds : ∀ c ∈ st.visited, in_bounds W H c
  start_vis : (⟨0, 0⟩ : Cell) ∈ st.visited
  vis_reach : ∀ c ∈ st.visited, ReachableOpen W H st.walls ⟨0, 0⟩ c
  walls_sub : st.walls ⊆ init_walls W H
  removed_vis : ∀ p ∈ init_walls W H, p ∉ st.walls → p.1 ∈ st.visited ∧ p.2 ∈ st.visited
  count : st.walls.card + st.visited.card = (init_walls W H).card + 1
  closure : ∀ c ∈ st.visited, ∀ d ∈ directions, in_bounds W H (get_neighbor c d) →
    get_neighbor c d ∈ st.visited ∨ get_neighbor c d ∈ st.frontier
  acyclic : (open_graph W H st.walls).IsAcyclic

/-- Termination measure of the builder loop: unseen cells count double, plus
the frontier length. -/
def genMeasure (W H : Nat) (st : GenState) : Nat :=
  2 * ((gridCells W H) \ (st.visited ∪ st.frontier.toFinset)).card + st.frontier.length

lemma gen_init_inv (W H : Nat) (hW : 1 ≤ W) (hH : 1 ≤ H) : GenInv W H (gen_init W H) := by
  have hsb : in_bounds W H ⟨0, 0⟩ := by
    unfold in_bounds
    simp only [Cell_x_mk, Cell_y_mk]
    refine ⟨le_refl 0, by exact_mod_cast hW, le_refl 0, by exact_mod_cast hH⟩
  have hfr : ∀ c : Cell, c ∈ add_frontier_cells W H ⟨0, 0⟩ {⟨0, 0⟩} [] ↔
      ∃ d ∈ directions, c = get_neighbor ⟨0, 0⟩ d ∧ in_bounds W H c ∧
        c ∉ ({⟨0, 0⟩} : Finset Cell) := by
    intro c
    rw [mem_add_frontier_cells]
    simp
  unfold gen_init
  refine ⟨?_, ?_, ?_, ?_, ?_, ?_, ?_, ?_, ?_, ?_, ?_, ?_⟩
  · show (add_frontier_cells W H ⟨0, 0⟩ {⟨0, 0⟩} []).Nodup
    exact add_frontier_cells_nodup W H _ _ [] List.nodup_nil
  · intro c hc
    obtain ⟨d, hd, rfl, hb, hnv⟩ := (hfr c).mp hc
    exact hb
  · intro c hc
    obtain ⟨d, hd, rfl, hb, hnv⟩ := (hfr c).mp hc
    exact hnv
  · intro c hc
    obtain ⟨d, hd, rfl, hb, hnv⟩ := (hfr c).mp hc
    refine ⟨(-d.1, -d.2), neg_mem_directions hd, ?_, ?_⟩ <;>
      rw [get_neighbor_neg]
    · exact hsb
    · exact Finset.mem_singleton_self _
  · intro c hc
    rw [Finset.mem_singleton] at hc
    exact hc ▸ hsb
  · exact Finset.mem_singleton_self _
  · intro c hc
    rw [Finset.mem_singleton] at hc
    exact hc ▸ .refl _
  · exact Finset.Subset.refl _
  · intro p hp hnp
    exact absurd hp hnp
  · simp
  · intro c hc d hd hb
    rw [Finset.mem_singleton] at hc
    subst hc
    by_cases hv : get_neighbor (⟨0, 0⟩ : Cell) d ∈ ({⟨0, 0⟩} : Finset Cell)
    · exact Or.inl hv
    · exact Or.inr ((hfr _).mpr ⟨d, hd, rfl, hb, hv⟩)
  · exact open_graph_init_acyclic W H

/-- The builder's step, written out, in the (always-taken) branch where the
drawn cell has a visited neighbor. -/
lemma gen_step_eq_of_ne (W H : Nat) (f : Nat → Nat) (st : GenState)
    (hns : visited_neighbors W H st.visited (drawn_cell f st) ≠ []) :
    gen_step W H f st =
    { walls := remove_wall st.walls (drawn_cell f st)
        ((visited_neighbors W H st.visited (drawn_cell f st)).getD
          (f (st.k + 1) % (visited_neighbors W H st.visited (drawn_cell f st)).length)
          ⟨0, 0⟩),
      visited := insert (drawn_cell f st) st.visited,
      frontier := add_frontier_cells W H (drawn_cell f st)
        (insert (drawn_cell f st) st.visited) (st.frontier.erase (drawn_cell f st)),
      k := st.k + 2 } := by
  unfold gen_step
  rw [if_neg hns]

/-- One builder iteration from a non-empty frontier preserves the invariant,
strictly decreases the measure, and adds exactly the drawn cell to `visited`. -/
lemma gen_step_inv {W H : Nat} {f : Nat → Nat} {st : GenState} (hInv : GenInv W H st)
    (hne : st.frontier ≠ []) :
    GenInv W H (gen_step W H f st) ∧
    genMeasure W H (gen_step W H f st) < genMeasure W H st ∧
    (gen_step W H f st).visited = insert (drawn_cell f st) st.visited := by
  have hcur : drawn_cell f st ∈ st.frontier := drawn_cell_mem hne
  have hcb : in_bounds W H (drawn_cell f st) := hInv.fr_bounds _ hcur
  have hcnv : drawn_cell f st ∉ st.visited := hInv.fr_not_vis _ hcur
  obtain ⟨d0, hd0, hd0b, hd0v⟩ := hInv.fr_nbr _ hcur
  have hnsne : visited_neighbors W H st.visited (drawn_cell f st) ≠ [] :=
    List.ne_nil_of_mem ((mem_visited_neighbors W H st.visited (drawn_cell f st) _).mpr
      ⟨d0, hd0, rfl, hd0b, hd0v⟩)
  rw [gen_step_eq_of_ne W H f st hnsne]
  set cur := drawn_cell f st with hcur_def
  set ns := visited_neighbors W H st.visited cur with hns_def
  set nb := ns.getD (f (st.k + 1) % ns.length) ⟨0, 0⟩ with hnb_def
  have hnbmem : nb ∈ ns := getD_mod_mem hnsne _ _
  rw [hns_def] at hnbmem
  obtain ⟨dn, hdn, hnbeq, hnbb, hnbv⟩ :=
    (mem_visited_neighbors W H st.visited cur nb).mp hnbmem
  have hncur : nb ≠ cur := fun h => hcnv (h ▸ hnbv)
  have hqkey : remove_key cur nb = wall_key cur nb := by
    rw [hnbeq]
    exact remove_key_eq_wall_key hdn
  have hqinit : wall_key cur nb ∈ init_walls W H := by
    rw [hnbeq]
    exact wall_key_mem_init hdn hcb (hnbeq ▸ hnbb)
  have hqmem : wall_key cur nb ∈ st.walls := by
    by_contra hq
    obtain ⟨h1, h2⟩ := hInv.removed_vis _ hqinit hq
    rcases wall_key_cases cur nb with hk | hk <;> rw [hk] at h1 h2
    · exact hcnv h1
    · exact hcnv h2
  have hwalls : remove_wall st.walls cur nb = st.walls.erase (wall_key cur nb) := by
    unfold remove_wall
    rw [hqkey]
  rw [hwalls]
  set V1 := insert cur st.visited with hV1_def
  set E := st.frontier.erase cur with hE_def
  set F2 := add_frontier_cells W H cur V1 E with hF2_def
  have hEmem : ∀ a, a ∈ E ↔ a ≠ cur ∧ a ∈ st.frontier := by
    intro a
    rw [hE_def]
    exact hInv.nodup.mem_erase_iff
  have hF2mem : ∀ a, a ∈ F2 ↔ a ∈ E ∨ ∃ d ∈ directions, a = get_neighbor cur d ∧
      in_bounds W H a ∧ a ∉ V1 := by
    intro a
    rw [hF2_def]
    exact mem_add_frontier_cells W H cur V1 E a
  have hF2nodup : F2.Nodup := add_frontier_cells_nodup W H cur V1 E (hInv.nodup.erase cur)
  have hwsub : st.walls.erase (wall_key cur nb) ⊆ st.walls := Finset.erase_subset _ _
  have hback : get_neighbor nb (-dn.1, -dn.2) = cur := by
    rw [hnbeq]
    exact get_neighbor_neg cur dn
  -- reachability of the newly visited cell
  have hreach_cur : ReachableOpen W H (st.walls.erase (wall_key cur nb)) ⟨0, 0⟩ cur := by
    have hnbreach : ReachableOpen W H (st.walls.erase (wall_key cur nb)) ⟨0, 0⟩ nb :=
      (hInv.vis_reach _ hnbv).mono hwsub
    have hwfalse : is_wall_between (st.walls.erase (wall_key cur nb)) nb
        (get_neighbor nb (-dn.1, -dn.2)) = false := by
      rw [hback, is_wall_between_false_iff, wall_key_comm]
      exact Finset.not_mem_erase _ _
    have hstep := ReachableOpen.step (-dn.1, -dn.2) (neg_mem_directions hdn) hnbreach
      (by rw [hback]; exact hcb) hwfalse
    rwa [hback] at hstep
  refine ⟨⟨hF2nodup, ?_, ?_, ?_, ?_, ?_, ?_, ?_, ?_, ?_, ?_, ?_⟩, ?_, rfl⟩
  · -- fr_bounds
    intro c hc
    rcases (hF2mem c).mp hc with hcE | ⟨d, hd, rfl, hb, hv⟩
    · exact hInv.fr_bounds _ ((hEmem c).mp hcE).2
    · exact hb
  · -- fr_not_vis
    intro c hc
    rcases (hF2mem c).mp hc with hcE | ⟨d, hd, rfl, hb, hv⟩
    · obtain ⟨hne2, hcf⟩ := (hEmem c).mp hcE
      rw [hV1_def, Finset.mem_insert]
      push_neg
      exact ⟨hne2, hInv.fr_not_vis _ hcf⟩
    · exact hv
  · -- fr_nbr
    intro c hc
    rcases (hF2mem c).mp hc with hcE | ⟨d, hd, rfl, hb, hv⟩
    · obtain ⟨hne2, hcf⟩ := (hEmem c).mp hcE
      obtain ⟨d, hd, hdb, hdv⟩ := hInv.fr_nbr _ hcf
      exact ⟨d, hd, hdb, by rw [hV1_def]; exact Finset.mem_insert_of_mem hdv⟩
    · refine ⟨(-d.1, -d.2), neg_mem_directions hd, ?_, ?_⟩ <;>
        rw [get_neighbor_neg]
      · exact hcb
      · rw [hV1_def]
        exact Finset.mem_insert_self _ _
  · -- vis_bounds
    intro c hc
    rw [hV1_def, Finset.mem_insert] at hc
    rcases hc with rfl | hc
    · exact hcb
    · exact hInv.vis_bounds _ hc
  · -- start_vis
    rw [hV1_def]
    exact Finset.mem_insert_of_mem hInv.start_vis
  · -- vis_reach
    intro c hc
    rw [hV1_def, Finset.mem_insert] at hc
    rcases hc with rfl | hc
    · exact hreach_cur
    · exact (hInv.vis_reach _ hc).mono hwsub
  · -- walls_sub
    exact hwsub.trans hInv.walls_sub
  · -- removed_vis
    intro p hp hnp
    rw [Finset.mem_erase] at hnp
    push_neg at hnp
    by_cases hpq : p = wall_key cur nb
    · rcases wall_key_cases cur nb with hk | hk <;> rw [hpq, hk, hV1_def]
      · exact ⟨Finset.mem_insert_self _ _, Finset.mem_insert_of_mem hnbv⟩
      · exact ⟨Finset.mem_insert_of_mem hnbv, Finset.mem_insert_self _ _⟩
    · obtain ⟨h1, h2⟩ := hInv.removed_vis p hp (hnp hpq)
      rw [hV1_def]
      exact ⟨Finset.mem_insert_of_mem h1, Finset.mem_insert_of_mem h2⟩
  · -- count
    rw [Finset.card_erase_of_mem hqmem, hV1_def, Finset.card_insert_of_not_mem hcnv]
    have hc := hInv.count
    have hwpos : 0 < st.walls.card := Finset.card_pos.mpr ⟨_, hqmem⟩
    omega
  · -- closure
    intro c hc d hd hb
    rw [hV1_def, Finset.mem_insert] at hc
    rcases hc with rfl | hc
    · by_cases hv : get_neighbor cur d ∈ V1
      · exact Or.inl hv
      · exact Or.inr ((hF2mem _).mpr (Or.inr ⟨d, hd, rfl, hb, hv⟩))
    · rcases hInv.closure c hc d hd hb with hv | hf
      · exact Or.inl (by rw [hV1_def]; exact Finset.mem_insert_of_mem hv)
      · by_cases heq : get_neighbor c d = cur
        · exact Or.inl (by rw [hV1_def, heq]; exact Finset.mem_insert_self _ _)
        · exact Or.inr ((hF2mem _).mpr (Or.inl ((hEmem _).mpr ⟨heq, hf⟩)))
  · -- acyclic
    refine @open_graph_erase_acyclic W H st.walls (wall_key cur nb) cur hqinit ?_ ?_
      hInv.acyclic
    · rcases wall_key_cases cur nb with hk | hk <;> rw [hk]
      · exact Or.inl rfl
      · exact Or.inr rfl
    · intro p hp hnp
      obtain ⟨h1, h2⟩ := hInv.removed_vis p hp hnp
      exact ⟨fun h => hcnv (h ▸ h1), fun h => hcnv (h ▸ h2)⟩
  · -- the measure strictly decreases
    set A := F2.toFinset \ E.toFinset with hA_def
    have hEF2 : E.toFinset ⊆ F2.toFinset := by
      intro a ha
      rw [List.mem_toFinset] at ha ⊢
      exact (hF2mem a).mpr (Or.inl ha)
    have hsplit : E.toFinset ∪ A = F2.toFinset := Finset.union_sdiff_of_subset hEF2
    have hAprops : ∀ a ∈ A, in_bounds W H a ∧ a ∉ V1 ∧ a ∉ st.frontier.toFinset := by
      intro a ha
      rw [hA_def, Finset.mem_sdiff, List.mem_toFinset, List.mem_toFinset] at ha
      obtain ⟨haF2, haE⟩ := ha
      rcases (hF2mem a).mp haF2 with hcE | ⟨d, hd, rfl, hb, hv⟩
      · exact absurd hcE haE
      · refine ⟨hb, hv, ?_⟩
        rw [List.mem_toFinset]
        intro haf
        have hane : get_neighbor cur d ≠ cur := fun h =>
          hv (by rw [hV1_def, h]; exact Finset.mem_insert_self _ _)
        exact haE ((hEmem _).mpr ⟨hane, haf⟩)
    have hdisjEA : Disjoint E.toFinset A := Finset.disjoint_sdiff
    have hlenF2 : F2.length = F2.toFinset.card := (List.toFinset_card_of_nodup hF2nodup).symm
    have hlenE : E.toFinset.card = st.frontier.length - 1 := by
      rw [List.toFinset_card_of_nodup (hInv.nodup.erase cur)]
      rw [List.length_erase_of_mem hcur]
    have hcardF2 : F2.toFinset.card = E.toFinset.card + A.card := by
      rw [← hsplit, Finset.card_union_of_disjoint hdisjEA]
    have hUnion : V1 ∪ F2.toFinset = (st.visited ∪ st.frontier.toFinset) ∪ A := by
      ext a
      simp only [Finset.mem_union, ← hsplit, List.mem_toFinset, hV1_def, Finset.mem_insert]
      constructor
      · rintro ((rfl | hv) | hEa | hA2)
        · exact Or.inl (Or.inr hcur)
        · exact Or.inl (Or.inl hv)
        · exact Or.inl (Or.inr ((hEmem a).mp hEa).2)
        · exact Or.inr hA2
      · rintro ((hv | hf) | hA2)
        · exact Or.inl (Or.inr hv)
        · by_cases heq : a = cur
          · exact Or.inl (Or.inl heq)
          · exact Or.inr (Or.inl ((hEmem a).mpr ⟨heq, hf⟩))
        · exact Or.inr (Or.inr hA2)
    have hU' : gridCells W H \ (V1 ∪ F2.toFinset) =
        (gridCells W H \ (st.visited ∪ st.frontier.toFinset)) \ A := by
      rw [hUnion]
      ext a
      simp only [Finset.mem_sdiff, Finset.mem_union]
      tauto
    have hAU : A ⊆ gridCells W H \ (st.visited ∪ st.frontier.toFinset) := by
      intro a ha
      obtain ⟨hb, hv, hf⟩ := hAprops a ha
      rw [Finset.mem_sdiff, Finset.mem_union, mem_gridCells]
      refine ⟨hb, ?_⟩
      push_neg
      exact ⟨fun hva => hv (hV1_def ▸ Finset.mem_insert_of_mem hva), hf⟩
    have hcardU' : (gridCells W H \ (V1 ∪ F2.toFinset)).card =
        (gridCells W H \ (st.visited ∪ st.frontier.toFinset)).card - A.card := by
      rw [hU']
      exact Finset.card_sdiff hAU
    have hAle : A.card ≤ (gridCells W H \ (st.visited ∪ st.frontier.toFinset)).card :=
      Finset.card_le_card hAU
    have hFpos : 0 < st.frontier.length := List.length_pos.mpr hne
    show 2 * (gridCells W H \ (V1 ∪ F2.toFinset)).card + F2.length <
      2 * (gridCells W H \ (st.visited ∪ st.frontier.toFinset)).card + st.frontier.length
    omega

lemma gen_loop_sound (W H : Nat) (f : Nat → Nat) :
    ∀ fuel st, GenInv W H st → genMeasure W H st < fuel →
    GenInv W H (gen_loop W H f fuel st) ∧ (gen_loop W H f fuel st).frontier = [] := by
  intro fuel
  induction fuel with
  | zero => intro st _ h; omega
  | succ fuel ih =>
    intro st hInv hm
    rw [gen_loop]
    by_cases hfr : st.frontier = []
    · rw [if_pos hfr]
      exact ⟨hInv, hfr⟩
    · rw [if_neg hfr]
      obtain ⟨hInv2, hlt, _⟩ := gen_step_inv hInv hfr
      exact ih _ hInv2 (by omega)

lemma genMeasure_lt_fuel {W H : Nat} {st : GenState} (hInv : GenInv W H st)
    (hW : 1 ≤ W) (hH : 1 ≤ H) : genMeasure W H st < gen_fuel W H := by
  have hsb : in_bounds W H ⟨0, 0⟩ := by
    unfold in_bounds
    simp only [Cell_x_mk, Cell_y_mk]
    refine ⟨le_refl 0, by exact_mod_cast hW, le_refl 0, by exact_mod_cast hH⟩
  have hsG : (⟨0, 0⟩ : Cell) ∈ gridCells W H := (mem_gridCells W H _).mpr hsb
  have hFt_sub : st.frontier.toFinset ⊆ gridCells W H \ st.visited := by
    intro a ha
    rw [List.mem_toFinset] at ha
    rw [Finset.mem_sdiff, mem_gridCells]
    exact ⟨hInv.fr_bounds _ ha, hInv.fr_not_vis _ ha⟩
  have h1 : gridCells W H \ (st.visited ∪ st.frontier.toFinset) =
      (gridCells W H \ st.visited) \ st.frontier.toFinset := by
    ext a
    simp only [Finset.mem_sdiff, Finset.mem_union]
    tauto
  have h2 : ((gridCells W H \ st.visited) \ st.frontier.toFinset).card =
      (gridCells W H \ st.visited).card - st.frontier.toFinset.card :=
    Finset.card_sdiff hFt_sub
  have hGV : gridCells W H \ st.visited ⊆ (gridCells W H).erase ⟨0, 0⟩ := by
    intro a ha
    rw [Finset.mem_sdiff] at ha
    rw [Finset.mem_erase]
    exact ⟨fun h => ha.2 (h ▸ hInv.start_vis), ha.1⟩
  have h3 : (gridCells W H \ st.visited).card ≤ W * H - 1 := by
    have := Finset.card_le_card hGV
    rwa [Finset.card_erase_of_mem hsG, gridCells_card] at this
  have h4 : st.frontier.toFinset.card = st.frontier.length :=
    List.toFinset_card_of_nodup hInv.nodup
  have h5 : st.frontier.toFinset.card ≤ (gridCells W H \ st.visited).card :=
    Finset.card_le_card hFt_sub
  have hWH : 1 ≤ W * H := Nat.one_le_iff_ne_zero.mpr (by positivity)
  unfold genMeasure gen_fuel
  rw [h1, h2]
  omega

lemma gen_final_spec (W H : Nat) (f : Nat → Nat) (hW : 1 ≤ W) (hH : 1 ≤ H) :
    GenInv W H (gen_final W H f) ∧ (gen_final W H f).frontier = [] :=
  gen_loop_sound W H f (gen_fuel W H) (gen_init W H) (gen_init_inv W H hW hH)
    (genMeasure_lt_fuel (gen_init_inv W H hW hH) hW hH)

lemma gen_loop_empty (W H : Nat) (f : Nat → Nat) (n : Nat) (st : GenState)
    (h : st.frontier = []) : gen_loop W H f n st = st := by
  cases n <;> simp [gen_loop, h]

lemma gen_loop_succ (W H : Nat) (f : Nat → Nat) (n : Nat) (st : GenState) :
    gen_loop W H f (n + 1) st =
    if (gen_loop W H f n st).frontier = [] then gen_loop W H f n st
    else gen_step W H f (gen_loop W H f n st) := by
  induction n generalizing st with
  | zero =>
    by_cases h : st.frontier = [] <;> simp [gen_loop, h]
  | succ n ih =>
    by_cases hfr : st.frontier = []
    · rw [gen_loop_empty W H f (n + 1 + 1) st hfr, gen_loop_empty W H f (n + 1) st hfr,
        if_pos hfr]
    · have hL : gen_loop W H f (n + 1 + 1) st = gen_loop W H f (n + 1) (gen_step W H f st) := by
        rw [gen_loop, if_neg hfr]
      have hR : gen_loop W H f (n + 1) st = gen_loop W H f n (gen_step W H f st) := by
        rw [gen_loop, if_neg hfr]
      rw [hL, hR, ih]

/-- Every intermediate state of the builder loop satisfies the invariant. -/
lemma gen_iter_inv (W H : Nat) (f : Nat → Nat) (hW : 1 ≤ W) (hH : 1 ≤ H) (n : Nat) :
    GenInv W H (gen_loop W H f n (gen_init W H)) := by
  induction n with
  | zero => exact gen_init_inv W H hW hH
  | succ n ih =>
    rw [gen_loop_succ]
    by_cases h : (gen_loop W H f n (gen_init W H)).frontier = []
    · rw [if_pos h]
      exact ih
    · rw [if_neg h]
      exact (gen_step_inv ih h).1

/-- When the builder loop has terminated, every in-bounds cell is visited:
`visited` is closed under in-bounds adjacency once the frontier is empty, and
the grid is connected. -/
lemma visited_full_of_closure {W H : Nat} {st : GenState} (hInv : GenInv W H st)
    (hfr : st.frontier = []) : ∀ c, in_bounds W H c → c ∈ st.visited := by
  have main : ∀ n : Nat, ∀ c : Cell, in_bounds W H c → (c.x + c.y).toNat = n →
      c ∈ st.visited := by
    intro n
    induction n using Nat.strong_induction_on with
    | _ n ih =>
      rintro ⟨cx, cy⟩ hc hn
      obtain ⟨h1, h2, h3, h4⟩ := hc
      simp only [Cell_x_mk, Cell_y_mk] at h1 h2 h3 h4 hn
      by_cases hx : cx = 0
      · by_cases hy : cy = 0
        · have hcs : (⟨cx, cy⟩ : Cell) = ⟨0, 0⟩ := by
            simp only [Cell.mk.injEq]
            exact ⟨hx, hy⟩
          exact hcs ▸ hInv.start_vis
        · have hb2 : in_bounds W H ⟨cx, cy - 1⟩ := by
            unfold in_bounds
            simp only [Cell_x_mk, Cell_y_mk]
            omega
          have hv2 : (⟨cx, cy - 1⟩ : Cell) ∈ st.visited :=
            ih ((cx + (cy - 1)).toNat) (by omega) ⟨cx, cy - 1⟩ hb2 rfl
          have heq : get_neighbor ⟨cx, cy - 1⟩ (0, 1) = (⟨cx, cy⟩ : Cell) := by
            simp only [get_neighbor, Cell_x_mk, Cell_y_mk, Cell.mk.injEq]
            omega
          have hcl := hInv.closure _ hv2 (0, 1) (by simp [directions])
            (by rw [heq]; exact ⟨h1, h2, h3, h4⟩)
          rw [heq] at hcl
          rcases hcl with hv | hf
          · exact hv
          · rw [hfr] at hf
            exact absurd hf (List.not_mem_nil _)
      · have hb2 : in_bounds W H ⟨cx - 1, cy⟩ := by
          unfold in_bounds
          simp only [Cell_x_mk, Cell_y_mk]
          omega
        have hv2 : (⟨cx - 1, cy⟩ : Cell) ∈ st.visited :=
          ih (((cx - 1) + cy).toNat) (by omega) ⟨cx - 1, cy⟩ hb2 rfl
        have heq : get_neighbor ⟨cx - 1, cy⟩ (1, 0) = (⟨cx, cy⟩ : Cell) := by
          simp only [get_neighbor, Cell_x_mk, Cell_y_mk, Cell.mk.injEq]
          omega
        have hcl := hInv.closure _ hv2 (1, 0) (by simp [directions])
          (by rw [heq]; exact ⟨h1, h2, h3, h4⟩)
        rw [heq] at hcl
        rcases hcl with hv | hf
        · exact hv
        · rw [hfr] at hf
          exact absurd hf (List.not_mem_nil _)
  intro c hc
  exact main (c.x + c.y).toNat c hc rfl

/-! ## Completeness of the BFS reachability check `_has_path` -/

lemma reach_mem_of_closed {W H : Nat} {walls : Finset (Cell × Cell)} {vis : Finset Cell}
    {s e : Cell}
    (hclosed : ∀ c ∈ vis, ∀ d ∈ directions, in_bounds W H (get_neighbor c d) →
      is_wall_between walls c (get_neighbor c d) = false → get_neighbor c d ∈ vis)
    (hs : s ∈ vis) (h : ReachableOpen W H walls s e) : e ∈ vis := by
  induction h with
  | refl => exact hs
  | step d hd hr hb hw ih => exact hclosed _ ih d hd hb hw

lemma bfs_fold_spec (W H : Nat) (walls : Finset (Cell × Cell)) (current : Cell)
    (ds : List (Int × Int)) :
    ∀ (vis : Finset Cell) (q : List Cell),
    ∃ t : List Cell,
      (ds.foldl (fun (p : Finset Cell × List Cell) d =>
        let n := get_neighbor current d
        if in_bounds W H n ∧ n ∉ p.1 ∧ ¬ is_wall_between walls current n then
          (insert n p.1, p.2 ++ [n])
        else p) (vis, q)).1 = vis ∪ t.toFinset ∧
      (ds.foldl (fun (p : Finset Cell × List Cell) d =>
        let n := get_neighbor current d
        if in_bounds W H n ∧ n ∉ p.1 ∧ ¬ is_wall_between walls current n then
          (insert n p.1, p.2 ++ [n])
        else p) (vis, q)).2 = q ++ t ∧
      t.Nodup ∧
      (∀ x ∈ t, in_bounds W H x ∧ x ∉ vis) ∧
      (∀ d ∈ ds, in_bounds W H (get_neighbor current d) →
        is_wall_between walls current (get_neighbor current d) = false →
        get_neighbor current d ∈ vis ∪ t.toFinset) := by
  induction ds with
  | nil =>
    intro vis q
    exact ⟨[], by simp, by simp, List.nodup_nil, by simp, by simp⟩
  | cons d ds ih =>
    intro vis q
    rw [List.foldl_cons]
    by_cases hc : in_bounds W H (get_neighbor current d) ∧ get_neighbor current d ∉ vis ∧
        ¬ is_wall_between walls current (get_neighbor current d)
    · rw [if_pos hc]
      obtain ⟨t, h1, h2, hnd, hprops, hlast⟩ :=
        ih (insert (get_neighbor current d) vis) (q ++ [get_neighbor current d])
      refine ⟨get_neighbor current d :: t, ?_, ?_, ?_, ?_, ?_⟩
      · rw [h1]
        ext a
        simp only [Finset.mem_union, Finset.mem_insert, List.toFinset_cons,
          List.mem_toFinset]
        tauto
      · rw [h2, List.append_assoc]
        rfl
      · exact List.nodup_cons.mpr
          ⟨fun hmem => (hprops _ hmem).2 (Finset.mem_insert_self _ _), hnd⟩
      · intro x hx
        rcases List.mem_cons.mp hx with rfl | hx
        · exact ⟨hc.1, hc.2.1⟩
        · obtain ⟨hb, hnv⟩ := hprops x hx
          exact ⟨hb, fun hv => hnv (Finset.mem_insert_of_mem hv)⟩
      · intro d2 hd2 hb2 hw2
        rcases List.mem_cons.mp hd2 with rfl | hd2
        · simp only [Finset.mem_union, Finset.mem_insert, List.toFinset_cons,
            List.mem_toFinset]
          tauto
        · have := hlast d2 hd2 hb2 hw2
          simp only [Finset.mem_union, Finset.mem_insert, List.toFinset_cons,
            List.mem_toFinset] at this ⊢
          tauto
    · rw [if_neg hc]
      obtain ⟨t, h1, h2, hnd, hprops, hlast⟩ := ih vis q
      refine ⟨t, h1, h2, hnd, hprops, ?_⟩
      intro d2 hd2 hb2 hw2
      rcases List.mem_cons.mp hd2 with rfl | hd2
      · push_neg at hc
        have hv : get_neighbor current d2 ∈ vis := by
          by_contra hnv
          have hT := hc hb2 hnv
          rw [hw2] at hT
          exact Bool.false_ne_true hT
        exact Finset.mem_union_left _ hv
      · exact hlast d2 hd2 hb2 hw2

lemma has_path_loop_complete (W H : Nat) (walls : Finset (Cell × Cell)) (s e : Cell) :
    ∀ fuel (vis : Finset Cell) (q : List Cell),
    (∀ c ∈ q, c ∈ vis) →
    (∀ c ∈ vis, c ∈ q ∨ ∀ d ∈ directions, in_bounds W H (get_neighbor c d) →
      is_wall_between walls c (get_neighbor c d) = false → get_neighbor c d ∈ vis) →
    (e ∈ vis → e ∈ q) →
    s ∈ vis →
    ReachableOpen W H walls s e →
    2 * (gridCells W H \ vis).card + q.length < fuel →
    has_path_loop W H walls e fuel vis q = true := by
  intro fuel
  induction fuel with
  | zero =>
    intro vis q _ _ _ _ _ h
    omega
  | succ fuel ih =>
    intro vis q hq hP hQ hs hreach hm
    cases q with
    | nil =>
      exfalso
      have hclosed : ∀ c ∈ vis, ∀ d ∈ directions, in_bounds W H (get_neighbor c d) →
          is_wall_between walls c (get_neighbor c d) = false → get_neighbor c d ∈ vis :=
        fun c hc => (hP c hc).resolve_left (List.not_mem_nil c)
      exact absurd (hQ (reach_mem_of_closed hclosed hs hreach)) (List.not_mem_nil e)
    | cons c rest =>
      rw [has_path_loop]
      by_cases hce : c = e
      · rw [if_pos hce]
      · rw [if_neg hce]
        obtain ⟨t, h1, h2, hnd, hprops, hlast⟩ := bfs_fold_spec W H walls c directions vis rest
        dsimp only
        rw [h1, h2]
        have hvc : c ∈ vis := hq c (List.mem_cons_self c rest)
        have htsub : t.toFinset ⊆ gridCells W H \ vis := by
          intro a ha
          rw [List.mem_toFinset] at ha
          obtain ⟨hb, hnv⟩ := hprops a ha
          rw [Finset.mem_sdiff, mem_gridCells]
          exact ⟨hb, hnv⟩
        have hsd : gridCells W H \ (vis ∪ t.toFinset) =
            (gridCells W H \ vis) \ t.toFinset := by
          ext a
          simp only [Finset.mem_sdiff, Finset.mem_union]
          tauto
        have hcard : (gridCells W H \ (vis ∪ t.toFinset)).card =
            (gridCells W H \ vis).card - t.toFinset.card := by
          rw [hsd]
          exact Finset.card_sdiff htsub
        have htlen : t.toFinset.card = t.length := List.toFinset_card_of_nodup hnd
        have htle : t.toFinset.card ≤ (gridCells W H \ vis).card :=
          Finset.card_le_card htsub
        apply ih
        · intro x hx
          rcases List.mem_append.mp hx with hx | hx
          · exact Finset.mem_union_left _ (hq x (List.mem_cons_of_mem c hx))
          · exact Finset.mem_union_right _ (List.mem_toFinset.mpr hx)
        · intro x hx
          rcases Finset.mem_union.mp hx with hx | hx
          · rcases hP x hx with hxq | hxcl
            · rcases List.mem_cons.mp hxq with rfl | hxr
              · exact Or.inr (hlast)
              · exact Or.inl (List.mem_append_left _ hxr)
            · exact Or.inr fun d hd hb hw => Finset.mem_union_left _ (hxcl d hd hb hw)
          · exact Or.inl (List.mem_append_right _ (List.mem_toFinset.mp hx))
        · intro he
          rcases Finset.mem_union.mp he with he | he
          · rcases List.mem_cons.mp (hQ he) with rfl | her
            · exact absurd rfl hce
            · exact List.mem_append_left _ her
          · exact List.mem_append_right _ (List.mem_toFinset.mp he)
        · exact Finset.mem_union_left _ hs
        · exact hreach
        · rw [hcard]
          simp only [List.length_append, List.length_cons] at hm ⊢
          omega

/-- `_has_path` finds every cell reachable through open edges. -/
lemma has_path_complete {W H : Nat} {walls : Finset (Cell × Cell)} {s e : Cell}
    (hreach : ReachableOpen W H walls s e) : has_path W H walls s e = true := by
  unfold has_path
  apply has_path_loop_complete W H walls s e
  · intro c hc
    rw [List.mem_singleton] at hc
    exact hc ▸ Finset.mem_singleton_self s
  · intro c hc
    rw [Finset.mem_singleton] at hc
    exact Or.inl (by rw [hc]; exact List.mem_singleton_self s)
  · intro he
    rw [Finset.mem_singleton] at he
    exact he ▸ List.mem_singleton_self s
  · exact Finset.mem_singleton_self s
  · exact hreach
  · have h1 : (gridCells W H \ {s}).card ≤ W * H := by
      calc (gridCells W H \ {s}).card ≤ (gridCells W H).card :=
            Finset.card_le_card (Finset.sdiff_subset)
        _ = W * H := gridCells_card W H
    simp only [List.length_singleton]
    omega

/-! ## The finished generator -/

lemma start_in_bounds {W H : Nat} (hW : 1 ≤ W) (hH : 1 ≤ H) :
    in_bounds W H ⟨0, 0⟩ := by
  unfold in_bounds
  simp only [Cell_x_mk, Cell_y_mk]
  refine ⟨le_refl 0, by exact_mod_cast hW, le_refl 0, by exact_mod_cast hH⟩

lemma goal_in_bounds {W H : Nat} (hW : 1 ≤ W) (hH : 1 ≤ H) :
    in_bounds W H ⟨(W : Int) - 1, (H : Int) - 1⟩ := by
  unfold in_bounds
  simp only [Cell_x_mk, Cell_y_mk]
  omega

lemma gen_final_reach {W H : Nat} {f : Nat → Nat} (hW : 1 ≤ W) (hH : 1 ≤ H) :
    ∀ c, in_bounds W H c → ReachableOpen W H (gen_final W H f).walls ⟨0, 0⟩ c := by
  obtain ⟨hInv, hfr⟩ := gen_final_spec W H f hW hH
  intro c hc
  exact hInv.vis_reach _ (visited_full_of_closure hInv hfr c hc)

/-- The builder already connects start and goal, so `_ensure_path_exists`
takes its BFS branch and returns the builder's walls unchanged. -/
lemma generate_maze_eq {W H : Nat} {f : Nat → Nat} (hW : 1 ≤ W) (hH : 1 ≤ H) :
    generate_maze W H f = (gen_final W H f).walls := by
  unfold generate_maze ensure_path_exists
  rw [if_pos (has_path_complete (gen_final_reach hW hH _ (goal_in_bounds hW hH)))]

lemma gen_final_visited_eq {W H : Nat} {f : Nat → Nat} (hW : 1 ≤ W) (hH : 1 ≤ H) :
    (gen_final W H f).visited = gridCells W H := by
  obtain ⟨hInv, hfr⟩ := gen_final_spec W H f hW hH
  refine Finset.Subset.antisymm ?_ ?_
  · intro c hc
    exact (mem_gridCells W H c).mpr (hInv.vis_bounds _ hc)
  · intro c hc
    exact visited_full_of_closure hInv hfr c ((mem_gridCells W H c).mp hc)

lemma reachableOpen_to_graph {W H : Nat} {walls : Finset (Cell × Cell)} {a c : Cell}
    (ha : in_bounds W H a) (h : ReachableOpen W H walls a c) :
    ∀ hc : in_bounds W H c, (open_graph W H walls).Reachable ⟨a, ha⟩ ⟨c, hc⟩ := by
  induction h with
  | refl => exact fun hc => SimpleGraph.Reachable.refl _
  | step d hd hr hb hw ih =>
    intro hc
    have hb2 : in_bounds W H _ := hr.in_bounds_end ha
    exact (ih hb2).trans (SimpleGraph.Adj.reachable ⟨adj_pair_mem_init hd hb2 hb, hw⟩)

/-- At the end of the builder loop the open-edge graph is a spanning tree of
the grid. -/
lemma gen_final_isTree {W H : Nat} {f : Nat → Nat} (hW : 1 ≤ W) (hH : 1 ≤ H) :
    (open_graph W H (gen_final W H f).walls).IsTree := by
  obtain ⟨hInv, hfr⟩ := gen_final_spec W H f hW hH
  have hreach := @gen_final_reach W H f hW hH
  refine ⟨?_, hInv.acyclic⟩
  have : Nonempty {c : Cell // in_bounds W H c} := ⟨⟨⟨0, 0⟩, start_in_bounds hW hH⟩⟩
  refine SimpleGraph.Connected.mk ?_
  rintro ⟨u, hu⟩ ⟨v, hv⟩
  have h1 := reachableOpen_to_graph (start_in_bounds hW hH) (hreach u hu) hu
  have h2 := reachableOpen_to_graph (start_in_bounds hW hH) (hreach v hv) hv
  exact h1.symm.trans h2

/-! ## Termination of the repair routine `_create_path` -/

/-- Manhattan distance between two cells (proof-side measure). -/
def cell_dist (a b : Cell) : Nat := (a.x - b.x).natAbs + (a.y - b.y).natAbs

lemma cell_dist_lt {W H : Nat} {a b : Cell} (ha : in_bounds W H a)
    (hb : in_bounds W H b) : cell_dist a b < W + H := by
  obtain ⟨h1, h2, h3, h4⟩ := ha
  obtain ⟨h5, h6, h7, h8⟩ := hb
  unfold cell_dist
  omega

lemma preferred_next_in_bounds {W H : Nat} {e c : Cell} (he : in_bounds W H e)
    (hc : in_bounds W H c) (hne : c ≠ e) : in_bounds W H (preferred_next e c) := by
  obtain ⟨cx, cy⟩ := c
  obtain ⟨ex, ey⟩ := e
  have hne2 : cx ≠ ex ∨ cy ≠ ey := by
    by_contra h
    push_neg at h
    exact hne (by simp only [Cell.mk.injEq]; exact ⟨h.1, h.2⟩)
  unfold in_bounds at he hc ⊢
  unfold preferred_next
  simp only [Cell_x_mk, Cell_y_mk] at he hc ⊢
  rcases hne2 with h | h <;> split_ifs <;>
    simp only [Cell_x_mk, Cell_y_mk] <;> omega

lemma preferred_next_dist {e c : Cell} (hne : c ≠ e) :
    cell_dist (preferred_next e c) e + 1 = cell_dist c e := by
  obtain ⟨cx, cy⟩ := c
  obtain ⟨ex, ey⟩ := e
  have hne2 : cx ≠ ex ∨ cy ≠ ey := by
    by_contra h
    push_neg at h
    exact hne (by simp only [Cell.mk.injEq]; exact ⟨h.1, h.2⟩)
  unfold preferred_next cell_dist
  simp only [Cell_x_mk, Cell_y_mk]
  rcases hne2 with h | h <;> split_ifs <;>
    simp only [Cell_x_mk, Cell_y_mk] <;> omega

lemma fallback_next_spec (W H : Nat) (visited : Finset Cell) (c next0 : Cell) :
    (in_bounds W H (fallback_next W H visited c next0) ∧
      fallback_next W H visited c next0 ∉ visited) ∨
    fallback_next W H visited c next0 = next0 := by
  unfold fallback_next
  split_ifs with h
  · cases hfind : directions.find? (fun d =>
        decide (in_bounds W H (get_neighbor c d) ∧ get_neighbor c d ∉ visited)) with
    | none => exact Or.inr rfl
    | some d =>
      left
      have := List.find?_some hfind
      rw [decide_eq_true_eq] at this
      exact this
  · exact Or.inr rfl

/-- Invariant of `_create_path`'s loop. -/
structure PathInv (W H : Nat) (st : PathState) : Prop where
  cur_b : in_bounds W H st.current
  vis_b : ∀ c ∈ st.visited, in_bounds W H c

/-- Termination measure of `_create_path`'s loop. -/
def pathMeasure (W H : Nat) (e : Cell) (st : PathState) : Nat :=
  (W * H - st.visited.card) * (W + H + 1) + cell_dist st.current e

lemma path_step_facts {W H : Nat} {e : Cell} {st : PathState} (he : in_bounds W H e)
    (hInv : PathInv W H st) (hce : ¬ st.current = e) :
    in_bounds W H (fallback_next W H st.visited st.current (preferred_next e st.current)) ∧
    PathInv W H
      { walls := remove_wall st.walls st.current
          (fallback_next W H st.visited st.current (preferred_next e st.current)),
        visited := insert (fallback_next W H st.visited st.current
          (preferred_next e st.current)) st.visited,
        path := st.path ++ [fallback_next W H st.visited st.current
          (preferred_next e st.current)],
        current := fallback_next W H st.visited st.current (preferred_next e st.current) } ∧
    pathMeasure W H e
      { walls := remove_wall st.walls st.current
          (fallback_next W H st.visited st.current (preferred_next e st.current)),
        visited := insert (fallback_next W H st.visited st.current
          (preferred_next e st.current)) st.visited,
        path := st.path ++ [fallback_next W H st.visited st.current
          (preferred_next e st.current)],
        current := fallback_next W H st.visited st.current (preferred_next e st.current) } <
      pathMeasure W H e st := by
  have hpb : in_bounds W H (preferred_next e st.current) :=
    preferred_next_in_bounds he hInv.cur_b hce
  set nx := fallback_next W H st.visited st.current (preferred_next e st.current) with hnx
  have hnxb : in_bounds W H nx := by
    rcases fallback_next_spec W H st.visited st.current (preferred_next e st.current)
      with ⟨hb, _⟩ | heq
    · exact hb
    · rw [hnx, heq]
      exact hpb
  have hVsub : st.visited ⊆ gridCells W H := by
    intro a ha
    exact (mem_gridCells W H a).mpr (hInv.vis_b a ha)
  have hVle : st.visited.card ≤ W * H := by
    have := Finset.card_le_card hVsub
    rwa [gridCells_card] at this
  refine ⟨hnxb, ⟨hnxb, ?_⟩, ?_⟩
  · intro a ha
    rcases Finset.mem_insert.mp ha with rfl | ha
    · exact hnxb
    · exact hInv.vis_b a ha
  · -- measure decreases
    unfold pathMeasure
    simp only
    have hde : cell_dist nx e < W + H := cell_dist_lt hnxb he
    by_cases hmem : nx ∈ st.visited
    · -- the fallback kept the (already visited) preferred cell: distance drops
      have hnxpref : nx = preferred_next e st.current := by
        rcases fallback_next_spec W H st.visited st.current (preferred_next e st.current)
          with ⟨_, hnv⟩ | heq
        · exact absurd hmem (hnx ▸ hnv)
        · rw [hnx, heq]
      have hdist : cell_dist nx e + 1 = cell_dist st.current e := by
        rw [hnxpref]
        exact preferred_next_dist hce
      rw [Finset.insert_eq_self.mpr hmem]
      omega
    · -- a fresh cell is visited: the dominant term drops
      rw [Finset.card_insert_of_not_mem hmem]
      have hVlt : st.visited.card + 1 ≤ W * H := by
        have hsub2 : insert nx st.visited ⊆ gridCells W H := by
          intro a ha
          rcases Finset.mem_insert.mp ha with rfl | ha
          · exact (mem_gridCells W H _).mpr hnxb
          · exact hVsub ha
        have := Finset.card_le_card hsub2
        rwa [gridCells_card, Finset.card_insert_of_not_mem hmem] at this
      have hprod : (W * H - st.visited.card) * (W + H + 1) =
          (W * H - (st.visited.card + 1)) * (W + H + 1) + (W + H + 1) := by
        have h1 : W * H - st.visited.card = (W * H - (st.visited.card + 1)) + 1 := by
          omega
        rw [h1, Nat.add_mul, one_mul]
      generalize (W * H - (st.visited.card + 1)) * (W + H + 1) = A at *
      omega

lemma create_path_loop_reaches (W H : Nat) (e : Cell) (he : in_bounds W H e) :
    ∀ fuel st, PathInv W H st → pathMeasure W H e st < fuel →
    (create_path_loop W H e fuel st).current = e := by
  intro fuel
  induction fuel with
  | zero =>
    intro st _ hm
    omega
  | succ fuel ih =>
    intro st hInv hm
    rw [create_path_loop]
    by_cases hce : st.current = e
    · rw [if_pos hce]
      exact hce
    · rw [if_neg hce]
      obtain ⟨hnxb, hInv2, hlt⟩ := path_step_facts he hInv hce
      rw [if_pos hnxb]
      exact ih _ hInv2 (by omega)

lemma create_path_loop_stable (W H : Nat) (e : Cell) (he : in_bounds W H e) :
    ∀ fuel k st, PathInv W H st → pathMeasure W H e st < fuel →
    create_path_loop W H e (fuel + k) st = create_path_loop W H e fuel st := by
  intro fuel
  induction fuel with
  | zero =>
    intro k st _ hm
    omega
  | succ fuel ih =>
    intro k st hInv hm
    have hsucc : fuel + 1 + k = (fuel + k) + 1 := by omega
    rw [hsucc, create_path_loop, create_path_loop]
    by_cases hce : st.current = e
    · rw [if_pos hce, if_pos hce]
    · rw [if_neg hce, if_neg hce]
      obtain ⟨hnxb, hInv2, hlt⟩ := path_step_facts he hInv hce
      rw [if_pos hnxb, if_pos hnxb]
      exact ih k _ hInv2 (by omega)

lemma path_init_measure {W H : Nat} (walls : Finset (Cell × Cell)) {s e : Cell}
    (hW : 1 ≤ W) (hH : 1 ≤ H)
    (hs : in_bounds W H s) (he : in_bounds W H e) :
    pathMeasure W H e (PathState.mk walls {s} [s] s) < path_fuel W H := by
  have hWH : 1 ≤ W * H := Nat.one_le_iff_ne_zero.mpr (by positivity)
  have hd : cell_dist s e < W + H := cell_dist_lt hs he
  unfold pathMeasure path_fuel
  simp only [Finset.card_singleton]
  have h4 : (W * H - 1) * (W + H + 1) + (W + H + 1) = W * H * (W + H + 1) := by
    calc (W * H - 1) * (W + H + 1) + (W + H + 1)
        = ((W * H - 1) + 1) * (W + H + 1) := (Nat.succ_mul _ _).symm
      _ = W * H * (W + H + 1) := by rw [Nat.sub_add_cancel hWH]
  have h5 : W * H * (W + H + 1) ≤ (W * H + 1) * (W + H + 1) :=
    Nat.mul_le_mul_right _ (Nat.le_succ _)
  generalize hA : (W * H - 1) * (W + H + 1) = A at *
  generalize hB : W * H * (W + H + 1) = B at *
  generalize hC : (W * H + 1) * (W + H + 1) = C at *
  omega

/-- `_create_path` always reaches the goal (the walls play no role: walls are
only ever removed, never consulted). -/
lemma create_path_reaches {W H : Nat} (walls : Finset (Cell × Cell)) {s e : Cell}
    (hW : 1 ≤ W) (hH : 1 ≤ H) (hs : in_bounds W H s) (he : in_bounds W H e) :
    (create_path W H walls s e).current = e := by
  unfold create_path
  apply create_path_loop_reaches W H e he
  · exact ⟨hs, fun c hc => by rw [Finset.mem_singleton] at hc; exact hc ▸ hs⟩
  · exact path_init_measure walls hW hH hs he

/-! ## The claims -/

/-- C1: for every width W ≥ 1, height H ≥ 1 and every behavior of the random
source, after `generate_maze` completes on a W×H grid the goal cell
(W−1, H−1) is reachable from the start cell (0, 0) through open grid-adjacent
edges, and the breadth-first search `_has_path` from start over open edges
reaches the goal. -/
theorem C1_generate_connects_start_goal (W H : Nat) (f : Nat → Nat)
    (hW : 1 ≤ W) (hH : 1 ≤ H) :
    ReachableOpen W H (generate_maze W H f) ⟨0, 0⟩ ⟨(W : Int) - 1, (H : Int) - 1⟩ ∧
    has_path W H (generate_maze W H f) ⟨0, 0⟩ ⟨(W : Int) - 1, (H : Int) - 1⟩ = true := by
  have hreach := @gen_final_reach W H f hW hH ⟨(W : Int) - 1, (H : Int) - 1⟩
    (goal_in_bounds hW hH)
  rw [generate_maze_eq hW hH]
  exact ⟨hreach, has_path_complete hreach⟩

theorem C1_witness :
    ReachableOpen 2 2 (generate_maze 2 2 (fun _ => 0)) ⟨0, 0⟩
      ⟨(2 : Int) - 1, (2 : Int) - 1⟩ ∧
    has_path 2 2 (generate_maze 2 2 (fun _ => 0)) ⟨0, 0⟩
      ⟨(2 : Int) - 1, (2 : Int) - 1⟩ = true :=
  C1_generate_connects_start_goal 2 2 (fun _ => 0) (by decide) (by decide)

/-- C2: for every W ≥ 1, H ≥ 1 and every behavior of the random source, at
the moment the builder's frontier loop terminates (before
`_ensure_path_exists` runs) the number of removed walls equals the number of
visited cells minus one, the whole W·H-cell grid is visited, and the open
edges form a spanning tree (connected and without cycles) of the grid, every
cell being reachable from (0,0) through open edges. -/
theorem C2_spanning_tree (W H : Nat) (f : Nat → Nat) (hW : 1 ≤ W) (hH : 1 ≤ H) :
    (init_walls W H).card - (gen_final W H f).walls.card =
      (gen_final W H f).visited.card - 1 ∧
    (gen_final W H f).visited.card = W * H ∧
    (init_walls W H).card - (gen_final W H f).walls.card = W * H - 1 ∧
    (open_graph W H (gen_final W H f).walls).IsTree ∧
    (∀ c, in_bounds W H c → ReachableOpen W H (gen_final W H f).walls ⟨0, 0⟩ c) := by
  obtain ⟨hInv, hfr⟩ := gen_final_spec W H f hW hH
  have hvc : (gen_final W H f).visited.card = W * H := by
    rw [gen_final_visited_eq hW hH, gridCells_card]
  have hle : (gen_final W H f).walls.card ≤ (init_walls W H).card :=
    Finset.card_le_card hInv.walls_sub
  have hcount := hInv.count
  exact ⟨by omega, hvc, by omega, gen_final_isTree hW hH, @gen_final_reach W H f hW hH⟩

theorem C2_witness :
    (init_walls 2 2).card - (gen_final 2 2 (fun _ => 0)).walls.card =
      (gen_final 2 2 (fun _ => 0)).visited.card - 1 ∧
    (gen_final 2 2 (fun _ => 0)).visited.card = 2 * 2 ∧
    (init_walls 2 2).card - (gen_final 2 2 (fun _ => 0)).walls.card = 2 * 2 - 1 ∧
    (open_graph 2 2 (gen_final 2 2 (fun _ => 0)).walls).IsTree ∧
    (∀ c, in_bounds 2 2 c →
      ReachableOpen 2 2 (gen_final 2 2 (fun _ => 0)).walls ⟨0, 0⟩ c) :=
  C2_spanning_tree 2 2 (fun _ => 0) (by decide) (by decide)

/-- C3: throughout the builder loop the frontier invariant holds — every
frontier cell has an in-bounds visited neighbor; consequently the `neighbors`
list of a drawn frontier cell is never empty and every drawn cell is added to
`visited`; and when the loop terminates `visited` contains all W·H cells. -/
theorem C3_frontier_invariant (W H : Nat) (f : Nat → Nat) (n : Nat)
    (hW : 1 ≤ W) (hH : 1 ≤ H) :
    (∀ c ∈ (gen_loop W H f n (gen_init W H)).frontier, ∃ d ∈ directions,
      in_bounds W H (get_neighbor c d) ∧
      get_neighbor c d ∈ (gen_loop W H f n (gen_init W H)).visited) ∧
    ((gen_loop W H f n (gen_init W H)).frontier ≠ [] →
      visited_neighbors W H (gen_loop W H f n (gen_init W H)).visited
        (drawn_cell f (gen_loop W H f n (gen_init W H))) ≠ [] ∧
      drawn_cell f (gen_loop W H f n (gen_init W H)) ∈
        (gen_loop W H f (n + 1) (gen_init W H)).visited) ∧
    (∀ c, in_bounds W H c → c ∈ (gen_final W H f).visited) := by
  have hInv := gen_iter_inv W H f hW hH n
  refine ⟨hInv.fr_nbr, ?_, ?_⟩
  · intro hne
    have hcur : drawn_cell f (gen_loop W H f n (gen_init W H)) ∈
        (gen_loop W H f n (gen_init W H)).frontier := drawn_cell_mem hne
    obtain ⟨d0, hd0, hd0b, hd0v⟩ := hInv.fr_nbr _ hcur
    refine ⟨List.ne_nil_of_mem ((mem_visited_neighbors W H _ _ _).mpr
      ⟨d0, hd0, rfl, hd0b, hd0v⟩), ?_⟩
    rw [gen_loop_succ, if_neg hne, (gen_step_inv hInv hne).2.2]
    exact Finset.mem_insert_self _ _
  · obtain ⟨hInvF, hfrF⟩ := gen_final_spec W H f hW hH
    exact visited_full_of_closure hInvF hfrF

theorem C3_witness :
    (∀ c ∈ (gen_loop 2 2 (fun _ => 0) 1 (gen_init 2 2)).frontier, ∃ d ∈ directions,
      in_bounds 2 2 (get_neighbor c d) ∧
      get_neighbor c d ∈ (gen_loop 2 2 (fun _ => 0) 1 (gen_init 2 2)).visited) ∧
    ((gen_loop 2 2 (fun _ => 0) 1 (gen_init 2 2)).frontier ≠ [] →
      visited_neighbors 2 2 (gen_loop 2 2 (fun _ => 0) 1 (gen_init 2 2)).visited
        (drawn_cell (fun _ => 0) (gen_loop 2 2 (fun _ => 0) 1 (gen_init 2 2))) ≠ [] ∧
      drawn_cell (fun _ => 0) (gen_loop 2 2 (fun _ => 0) 1 (gen_init 2 2)) ∈
        (gen_loop 2 2 (fun _ => 0) (1 + 1) (gen_init 2 2)).visited) ∧
    (∀ c, in_bounds 2 2 c → c ∈ (gen_final 2 2 (fun _ => 0)).visited) :=
  C3_frontier_invariant 2 2 (fun _ => 0) 1 (by decide) (by decide)

/-- C4: generation is deterministic in the random source: two runs of
`generate_maze` that consume an identical sequence of random draws produce
identical wall sets. -/
theorem C4_deterministic (W H : Nat) (f g : Nat → Nat) (h : ∀ n, f n = g n) :
    generate_maze W H f = generate_maze W H g := by
  rw [funext h]

theorem C4_witness : generate_maze 2 2 (fun _ => 0) = generate_maze 2 2 (fun _ => 0) :=
  C4_deterministic 2 2 (fun _ => 0) (fun _ => 0) (fun _ => rfl)

/-- C6: `can_move` returns false for every destination outside the grid
bounds, for every wall-set state — the rejection does not consult the walls. -/
theorem C6_out_of_bounds_rejected (N : Nat) (walls : Finset (Cell × Cell))
    (from_cell to_cell : Cell)
    (h : ¬ (0 ≤ to_cell.x ∧ to_cell.x < (N : Int) ∧ 0 ≤ to_cell.y ∧
      to_cell.y < (N : Int))) :
    can_move N walls from_cell to_cell = false := by
  unfold can_move
  rw [if_pos h]

theorem C6_witness :
    can_move 2 (init_walls 2 2) ⟨0, 0⟩ ⟨2, 0⟩ = false :=
  C6_out_of_bounds_rejected 2 (init_walls 2 2) ⟨0, 0⟩ ⟨2, 0⟩ (by decide)

/-- C7: immediately after construction the wall set contains exactly
2·W·H − W − H entries: one right-neighbor entry for every cell with
x < W−1 and one down-neighbor entry for every cell with y < H−1, and
nothing else. -/
theorem C7_initial_wall_count (W H : Nat) :
    (init_walls W H).card = 2 * W * H - W - H ∧
    (∀ p : Cell × Cell, p ∈ init_walls W H ↔
      (∃ x y : Nat, x + 1 < W ∧ y < H ∧ p = (⟨x, y⟩, ⟨(x : Int) + 1, y⟩)) ∨
      (∃ x y : Nat, x < W ∧ y + 1 < H ∧ p = (⟨x, y⟩, ⟨x, (y : Int) + 1⟩))) :=
  ⟨init_walls_card W H, mem_init_walls W H⟩

/-- C8: the wall query is symmetric for grid-adjacent cells in every
wall-set state, thanks to the canonical lexicographic ordering. -/
theorem C8_wall_query_symmetric (walls : Finset (Cell × Cell)) (a b : Cell)
    (hadj : (a.x - b.x).natAbs + (a.y - b.y).natAbs = 1) :
    is_wall_between walls a b = is_wall_between walls b a :=
  is_wall_between_comm walls a b

theorem C8_witness :
    is_wall_between (init_walls 2 2) ⟨0, 0⟩ ⟨1, 0⟩ =
    is_wall_between (init_walls 2 2) ⟨1, 0⟩ ⟨0, 0⟩ :=
  C8_wall_query_symmetric (init_walls 2 2) ⟨0, 0⟩ ⟨1, 0⟩ (by decide)

/-- C9: for every W ≥ 1, H ≥ 1, in-bounds start and end, and every wall-set
state, `_create_path` terminates — running its loop with any extra fuel
changes nothing — and it stops in one of the two specified ways (in fact
always with the current cell equal to the goal). -/
theorem C9_create_path_terminates (W H : Nat) (walls : Finset (Cell × Cell))
    (s e : Cell) (hW : 1 ≤ W) (hH : 1 ≤ H)
    (hs : in_bounds W H s) (he : in_bounds W H e) :
    ((create_path W H walls s e).current = e ∨ (create_path W H walls s e).path = []) ∧
    (∀ k, create_path_loop W H e (path_fuel W H + k) (PathState.mk walls {s} [s] s) =
      create_path W H walls s e) := by
  refine ⟨Or.inl (create_path_reaches walls hW hH hs he), ?_⟩
  intro k
  unfold create_path
  exact create_path_loop_stable W H e he (path_fuel W H) k _
    ⟨hs, fun c hc => by rw [Finset.mem_singleton] at hc; exact hc ▸ hs⟩
    (path_init_measure walls hW hH hs he)

theorem C9_witness :
    (((create_path 2 2 (init_walls 2 2) ⟨0, 0⟩ ⟨1, 1⟩).current = ⟨1, 1⟩ ∨
      (create_path 2 2 (init_walls 2 2) ⟨0, 0⟩ ⟨1, 1⟩).path = []) ∧
    (∀ k, create_path_loop 2 2 ⟨1, 1⟩ (path_fuel 2 2 + k)
        (PathState.mk (init_walls 2 2) {⟨0, 0⟩} [⟨0, 0⟩] ⟨0, 0⟩) =
      create_path 2 2 (init_walls 2 2) ⟨0, 0⟩ ⟨1, 1⟩)) :=
  C9_create_path_terminates 2 2 (init_walls 2 2) ⟨0, 0⟩ ⟨1, 1⟩ (by decide) (by decide)
    (by decide) (by decide)

/-- C10: for every in-bounds cell c and every wall-set state arising in the
program (a subset of the initial wall set — walls are only ever removed),
`can_move(c, c)` returns true: the zero-delta request passes the bounds
check, is treated as an orthogonal step, and `is_wall_between(c, c)` is
false because the pair (c, c) is never a member of the wall set. -/
theorem C10_self_move_allowed (N W H : Nat) (walls : Finset (Cell × Cell)) (c : Cell)
    (hsub : walls ⊆ init_walls W H) (hc : in_bounds N N c) :
    can_move N walls c c = true := by
  obtain ⟨h1, h2, h3, h4⟩ := hc
  unfold can_move
  rw [if_neg (not_not_intro ⟨h1, h2, h3, h4⟩)]
  dsimp only
  rw [if_neg (by simp)]
  rw [Bool.not_eq_true', is_wall_between_false_iff]
  have hk : wall_key c c = (c, c) := by
    unfold wall_key
    rw [if_neg (by simp)]
  rw [hk]
  intro hmem
  exact init_walls_fst_ne_snd (hsub hmem) rfl

theorem C10_witness : can_move 2 (init_walls 2 2) ⟨1, 1⟩ ⟨1, 1⟩ = true :=
  C10_self_move_allowed 2 2 2 (init_walls 2 2) ⟨1, 1⟩ (Finset.Subset.refl _) (by decide)

/-- C5: a diagonal step (both deltas non-zero, magnitude 1) is accepted by
`can_move` only if all four edges of the two L-shaped corner paths are open;
in particular on a 2×2 grid with the wall (1,0)-(1,1) present,
`can_move((0,0),(1,1))` is false regardless of the other edges. -/
theorem C5_diagonal_needs_both_corners :
    (∀ (N : Nat) (walls : Finset (Cell × Cell)) (a b : Cell),
      b.x - a.x ≠ 0 → b.y - a.y ≠ 0 →
      (b.x - a.x).natAbs = 1 → (b.y - a.y).natAbs = 1 →
      can_move N walls a b = true →
      is_wall_between walls a ⟨a.x + (b.x - a.x), a.y⟩ = false ∧
      is_wall_between walls ⟨a.x + (b.x - a.x), a.y⟩ b = false ∧
      is_wall_between walls a ⟨a.x, a.y + (b.y - a.y)⟩ = false ∧
      is_wall_between walls ⟨a.x, a.y + (b.y - a.y)⟩ b = false) ∧
    (∀ walls : Finset (Cell × Cell), ((⟨1, 0⟩ : Cell), (⟨1, 1⟩ : Cell)) ∈ walls →
      can_move 2 walls ⟨0, 0⟩ ⟨1, 1⟩ = false) := by
  constructor
  · intro N walls a b hdx hdy _ _ hmove
    unfold can_move at hmove
    by_cases hb : 0 ≤ b.x ∧ b.x < (N : Int) ∧ 0 ≤ b.y ∧ b.y < (N : Int)
    · rw [if_neg (not_not_intro hb)] at hmove
      dsimp only at hmove
      rw [if_pos ⟨hdx, hdy⟩] at hmove
      simp only [Bool.and_eq_true, Bool.not_eq_true'] at hmove
      exact ⟨hmove.1.1.1, hmove.1.1.2, hmove.1.2, hmove.2⟩
    · rw [if_pos hb] at hmove
      exact absurd hmove (by simp)
  · intro walls hmem
    have hwall : is_wall_between walls ⟨(0 : Int) + ((1 : Int) - 0), 0⟩ ⟨1, 1⟩ = true := by
      unfold is_wall_between wall_key
      rw [if_neg (by norm_num)]
      norm_num
      exact hmem
    unfold can_move
    rw [if_neg (by norm_num)]
    dsimp only
    rw [if_pos (by norm_num)]
    rw [hwall]
    simp

theorem C5_witness :
    ((1 : Int) - 0 ≠ 0 ∧ (1 : Int) - 0 ≠ 0 ∧
      can_move 2 {((⟨1, 0⟩ : Cell), (⟨1, 1⟩ : Cell))} ⟨0, 0⟩ ⟨1, 1⟩ = false) :=
  ⟨by decide, by decide,
    C5_diagonal_needs_both_corners.2 {((⟨1, 0⟩ : Cell), (⟨1, 1⟩ : Cell))}
      (Finset.mem_singleton_self _)⟩
